import Mathlib

set_option maxHeartbeats 1000000

/-! Shallow embedding of the cargo-feature-aspect propagation engine
    (`src/main.rs`) together with proofs about its behaviour.

    Packages, dependencies and manifest documents are modelled as plain
    inductive data; the per-package visit, the change planner, the patch
    applier and the run loop are translated function by function from the
    source.  The topological orderer delegates to the external `topo_sort`
    crate whose source is not part of this repository; it is modelled from
    the spec (see `topo_sort_packages`). -/

/-- Boolean membership test, mirroring `Vec::contains` / `HashSet::contains`. -/
def memB {α : Type} [DecidableEq α] (x : α) (l : List α) : Bool :=
  l.any (fun y => decide (y = x))

/-- First index whose element satisfies the predicate, mirroring `Iterator::position`. -/
def position? {α : Type} (p : α → Bool) : List α → Option Nat
  | [] => none
  | x :: xs => if p x then some 0 else (position? p xs).map (· + 1)

/-- Remove the element at the given index, mirroring `toml_edit::Array::remove`. -/
def removeAt {α : Type} : List α → Nat → List α
  | [], _ => []
  | _ :: xs, 0 => xs
  | x :: xs, n + 1 => x :: removeAt xs n

/-- Insertion into a sorted list, the building block of the sort model. -/
def insertBy {α : Type} (le : α → α → Bool) (x : α) : List α → List α
  | [] => [x]
  | y :: ys => if le x y then x :: y :: ys else y :: insertBy le x ys

/-- Insertion sort, modelling `slice::sort_by` / `toml_edit::Array::sort_by`. -/
def sortBy {α : Type} (le : α → α → Bool) : List α → List α
  | [] => []
  | x :: xs => insertBy le x (sortBy le xs)

/-- Split at the first occurrence of a separator, mirroring `str::split_once`. -/
def splitOnceAux (sep : Char) : List Char → Option (List Char × List Char)
  | [] => none
  | c :: rest =>
    if c = sep then some ([], rest)
    else (splitOnceAux sep rest).map (fun q => (c :: q.1, q.2))

/-- String version of `splitOnceAux`, mirroring Rust `str::split_once`. -/
def splitOnce (s : String) (sep : Char) : Option (String × String) :=
  (splitOnceAux sep s.data).map (fun q => (String.mk q.1, String.mk q.2))

/-- Lexicographic strict order on character lists (Rust `str` ordering). -/
def strLtL : List Char → List Char → Bool
  | [], [] => false
  | [], _ :: _ => true
  | _ :: _, [] => false
  | a :: as, b :: bs => if a = b then strLtL as bs else decide (a < b)

/-- Non-strict lexicographic string order. -/
def strLe (a b : String) : Bool := !(strLtL b.data a.data)

/-- Structural prefix test on character lists (Rust `str::starts_with`). -/
def startsWithL : List Char → List Char → Bool
  | _, [] => true
  | [], _ :: _ => false
  | c :: cs, d :: ds => if c = d then startsWithL cs ds else false

/-- Sort key from `visit_aspect_feature`: `dep:`-tokens sort before forwarding
specs (`sort_key` returns `(false, param)` for them and `false < true`). -/
def sortKeyFlag (p : String) : Bool := !(startsWithL p.data "dep:".data)

/-- The comparison `sort_ord` of `visit_aspect_feature`, as a `≤` test. -/
def sortOrd (a b : String) : Bool :=
  if sortKeyFlag a = sortKeyFlag b then strLe a b else !(sortKeyFlag a)

/-- Reverse order on `Nat`, used to sort removal indices highest-first. -/
def natGe (a b : Nat) : Bool := decide (b ≤ a)

/-- A resolved dependency: name plus optional flag (`cargo_metadata::Dependency`). -/
structure Dependency where
  name : String
  optional : Bool
deriving DecidableEq

/-- A workspace package as consumed from the package graph provider. -/
structure Package where
  name : String
  dependencies : List Dependency
  features : List (String × List String)
  manifest_path : String
deriving DecidableEq

/-- The value stored under one feature key of the `[features]` table: either an
array of parameter strings or something that is not an array. -/
inductive FeatureEntry where
  | arr (params : List String)
  | notArr
deriving DecidableEq

/-- The value stored under the `features` key: a table of feature entries or
something that is not a table. -/
inductive FeaturesField where
  | table (entries : List (String × FeatureEntry))
  | notTable
deriving DecidableEq

/-- A manifest document: the `features` field (if present) plus the remaining
document content, opaque to the engine and preserved by edits. -/
structure Doc where
  features : Option FeaturesField
  rest : String
deriving DecidableEq

/-- One human-readable report line of the dry-run/verify path: a
`tracing::info!` line per parameter plus an `eprintln!` summary per set. -/
inductive Line where
  | wouldAdd (feature param : String)
  | wouldRemove (feature param : String)
  | addSummary (pkg feature : String) (params : List String)
  | removeSummary (pkg feature : String) (params : List String)
deriving DecidableEq

/-- An externally observable effect of the apply path. -/
inductive Event where
  | stdout (s : String)
  | write (path : String) (doc : Doc)
deriving DecidableEq

/-- The immutable part of the run context (`Context` in the source); the
mutable fields `has_changes` and `in_scope_packages` live in `RunState`. -/
structure Context where
  feature_name : String
  extra_feature_params : List String
  dry_run : Bool
  verify : Bool
  sort : Bool
  unqualified_leaf_features : List String
  qualified_leaf_features : List (String × String)
deriving DecidableEq

/-- Mandatory forwarding spec `dep-name/feature`. -/
def fwd (name feature : String) : String := name ++ "/" ++ feature

/-- Optional forwarding spec `dep-name?/feature`. -/
def fwdOpt (name feature : String) : String := name ++ "?/" ++ feature

/-- Forwarding specs for in-scope dependencies (`visit_aspect_feature`,
propagation loop): the shape matching the dependency's current optionality
goes to the add list, the opposite shape to the remove list. -/
def planDeps (feature : String) (scope : List String) : List Dependency → List String × List String
  | [] => ([], [])
  | d :: rest =>
    let p := planDeps feature scope rest
    if memB d.name scope then
      if d.optional then (fwdOpt d.name feature :: p.1, fwd d.name feature :: p.2)
      else (fwd d.name feature :: p.1, fwdOpt d.name feature :: p.2)
    else p

/-- The dep-token existence filter of `visit_aspect_feature`: a token of shape
`dep:<name>` is included only when `<name>` is an actual dependency. -/
def shouldInclude (pkg : Package) (param : String) : Bool :=
  match splitOnce param ':' with
  | some q => if q.1 = "dep" then pkg.dependencies.any (fun d => decide (d.name = q.2)) else true
  | none => true

/-- Extra configured parameters chained with referenced leaf features, filtered
by `shouldInclude`. -/
def planExtras (pkg : Package) (extras refs : List String) : List String :=
  (extras ++ refs).filter (shouldInclude pkg)

/-- The full change plan of one package: `params_to_add` and `params_to_remove`
as computed before diffing against the document. -/
def planParams (feature : String) (scope : List String) (extras refs : List String)
    (pkg : Package) : List String × List String :=
  let p := planDeps feature scope pkg.dependencies
  (p.1 ++ planExtras pkg extras refs, p.2)

/-- Lookup in an association list of feature entries. -/
def lookupEntry : List (String × FeatureEntry) → String → Option FeatureEntry
  | [], _ => none
  | e :: rest, k => if e.1 = k then some e.2 else lookupEntry rest k

/-- Update-or-append in an association list of feature entries, mirroring
`toml_edit`'s `entry(..).or_insert_with(..)` followed by an in-place edit. -/
def setEntry : List (String × FeatureEntry) → String → FeatureEntry → List (String × FeatureEntry)
  | [], k, v => [(k, v)]
  | e :: rest, k, v => if e.1 = k then (k, v) :: rest else e :: setEntry rest k v

/-- The literal parameter list of the aspect feature in a document, as read by
the dry-run/verify path (`toml` parse, defaulting to the empty list). -/
def currentParams (feature : String) (doc : Doc) : List String :=
  match doc.features with
  | some (.table es) =>
    match lookupEntry es feature with
    | some (.arr ps) => ps
    | _ => []
  | _ => []

/-- Fetch (or create empty) the `features` table, failing when the field
exists but is not a table. -/
def getFeatureEntries (pkg : Package) (doc : Doc) : Except String (List (String × FeatureEntry)) :=
  match doc.features.getD (.table []) with
  | .table es => .ok es
  | .notTable =>
    .error ("failed to edit manifest for package `" ++ pkg.name
      ++ "`: the `features` field exists but is not a table!")

/-- Fetch (or create empty) the aspect feature's array, failing when the key
exists but is not an array. -/
def getFeatureArr (pkg : Package) (feature : String) (es : List (String × FeatureEntry)) :
    Except String (List String) :=
  match (lookupEntry es feature).getD (.arr []) with
  | .arr ps => .ok ps
  | .notArr =>
    .error ("failed to edit manifest for package `" ++ pkg.name
      ++ "`: `features." ++ feature ++ "` exists but is not an array!")

/-- The in-place patch of the feature array performed by the apply path:
filter the additions against the current array, collect removal indices,
delete them highest-first, append the additions (pre-sorted when global
sorting is off), and finally sort the whole array when sorting is on. -/
def patchArr (sortFlag : Bool) (toAdd toRemove arr : List String) : List String :=
  let toAdd1 := toAdd.filter (fun p => !(memB p arr))
  let idxs := toRemove.filterMap (fun p => position? (fun q => decide (q = p)) arr)
  let idxsSorted := sortBy natGe idxs
  let arr1 := idxsSorted.foldl removeAt arr
  let toAdd2 := if sortFlag then toAdd1 else sortBy sortOrd toAdd1
  let arr2 := arr1 ++ toAdd2
  if sortFlag then sortBy sortOrd arr2 else arr2

/-- The result of visiting one in-scope package: the (possibly updated)
document, the report lines, the externally observable events, and whether the
visit detected pending changes. -/
structure VisitResult where
  doc : Doc
  lines : List Line
  events : List Event
  changed : Bool
deriving DecidableEq

/-- The report emitted by the dry-run/verify path: one line per parameter plus
one summary line per non-empty set. -/
def mkDryLines (pkgName feature : String) (toAdd toRemove : List String) : List Line :=
  (if toAdd.isEmpty then [] else
    toAdd.map (Line.wouldAdd feature) ++ [Line.addSummary pkgName feature toAdd])
  ++ (if toRemove.isEmpty then [] else
    toRemove.map (Line.wouldRemove feature) ++ [Line.removeSummary pkgName feature toRemove])

/-- The per-package plan/diff/patch step (`visit_aspect_feature`). -/
def visit_aspect_feature (dryRun verify sortFlag : Bool) (feature : String)
    (scope : List String) (extras refs : List String) (pkg : Package) (doc : Doc) :
    Except String VisitResult :=
  let plan := planParams feature scope extras refs pkg
  if dryRun || verify then
    let current := currentParams feature doc
    let toAdd := plan.1.filter (fun p => !(memB p current))
    let toRemove := plan.2.filter (fun p => memB p current)
    .ok ⟨doc, mkDryLines pkg.name feature toAdd toRemove, [],
         !toAdd.isEmpty || !toRemove.isEmpty⟩
  else
    let stdouts := if pkg.name = "cyw43-pio" then [Event.stdout "break"] else []
    match getFeatureEntries pkg doc with
    | .error e => .error e
    | .ok es =>
      match getFeatureArr pkg feature es with
      | .error e => .error e
      | .ok arr =>
        let arr' := patchArr sortFlag plan.1 plan.2 arr
        let doc' : Doc := ⟨some (.table (setEntry es feature (.arr arr'))), doc.rest⟩
        .ok ⟨doc', [], stdouts ++ [Event.write pkg.manifest_path doc'], false⟩

/-- Does a feature name (of the named package) match a configured leaf? -/
def leafFeatureMatches (ctx : Context) (pkgName feat : String) : Bool :=
  memB feat ctx.unqualified_leaf_features || memB (pkgName, feat) ctx.qualified_leaf_features

/-- Leaf features of the package whose names differ from the aspect name; they
are added as extra parameters of the aspect feature. -/
def referencedLeafFeatures (ctx : Context) (pkg : Package) : List String :=
  (pkg.features.map Prod.fst).filter
    (fun f => leafFeatureMatches ctx pkg.name f && !(decide (ctx.feature_name = f)))

/-- The scope decision of `visit_package`: the package declares a matching
leaf feature, or depends on an already-in-scope package. -/
def isInScope (ctx : Context) (scope : List String) (pkg : Package) : Bool :=
  (pkg.features.map Prod.fst).any (fun f => leafFeatureMatches ctx pkg.name f)
  || pkg.dependencies.any (fun d => memB d.name scope)

/-- Set-insertion into the scope list (`HashSet::insert`). -/
def insertName (scope : List String) (n : String) : List String :=
  if memB n scope then scope else scope ++ [n]

/-- The scope-set transition of one package visit. -/
def scopeStep (ctx : Context) (scope : List String) (pkg : Package) : List String :=
  if isInScope ctx scope pkg then insertName scope pkg.name else scope

/-- The scope set after visiting a list of packages in order. -/
def scopeFold (ctx : Context) (init : List String) (pkgs : List Package) : List String :=
  pkgs.foldl (scopeStep ctx) init

/-- The mutable state threaded through the traversal: the scope set, the
accumulated change flag, the documents on disk, the emitted report lines and
events, and the trace of visited packages. -/
structure RunState where
  scope : List String
  has_changes : Bool
  docs : List (String × Doc)
  lines : List Line
  events : List Event
  visited : List String
deriving DecidableEq

/-- Lookup of a document by manifest path (`fs::read_to_string`). -/
def lookupDoc : List (String × Doc) → String → Option Doc
  | [], _ => none
  | e :: rest, k => if e.1 = k then some e.2 else lookupDoc rest k

/-- Write-back of a document by manifest path (`fs::write`). -/
def setDoc : List (String × Doc) → String → Doc → List (String × Doc)
  | [], k, v => [(k, v)]
  | e :: rest, k, v => if e.1 = k then (k, v) :: rest else e :: setDoc rest k v

/-- Error raised when a package's manifest cannot be read. -/
def io_read_err (pkg : Package) : String :=
  "failed to read manifest for package `" ++ pkg.name ++ "`"

/-- One package visit (`visit_package`): decide scope membership, record it,
and for in-scope packages run the plan/diff/patch step. -/
def visit_package (ctx : Context) (pkg : Package) (st : RunState) :
    Except String Unit × RunState :=
  if isInScope ctx st.scope pkg then
    let refs := referencedLeafFeatures ctx pkg
    let scope' := insertName st.scope pkg.name
    match lookupDoc st.docs pkg.manifest_path with
    | none =>
      (.error (io_read_err pkg),
        ⟨scope', st.has_changes, st.docs, st.lines, st.events, st.visited ++ [pkg.name]⟩)
    | some doc =>
      match visit_aspect_feature ctx.dry_run ctx.verify ctx.sort ctx.feature_name scope'
          ctx.extra_feature_params refs pkg doc with
      | .error e =>
        (.error e,
          ⟨scope', st.has_changes, st.docs, st.lines, st.events, st.visited ++ [pkg.name]⟩)
      | .ok res =>
        (.ok (),
          ⟨scope', st.has_changes || res.changed,
            (if ctx.dry_run || ctx.verify then st.docs
             else setDoc st.docs pkg.manifest_path res.doc),
            st.lines ++ res.lines, st.events ++ res.events, st.visited ++ [pkg.name]⟩)
  else
    (.ok (), ⟨st.scope, st.has_changes, st.docs, st.lines, st.events, st.visited ++ [pkg.name]⟩)

/-- Readiness of a package for selection: none of its dependencies names a
package still awaiting emission (non-member dependency names never block). -/
def ready (rem : List Package) (p : Package) : Bool :=
  p.dependencies.all (fun d => rem.all (fun q => !(decide (q.name = d.name))))

/-- Fuelled Kahn loop: repeatedly emit the first ready package in input order. -/
def kahnAux : Nat → List Package → Option (List Package)
  | _, [] => some []
  | 0, _ :: _ => none
  | Nat.succ fuel, r :: rs =>
    match (r :: rs).find? (ready (r :: rs)) with
    | none => none
    | some p => (kahnAux fuel ((r :: rs).erase p)).map (fun out => p :: out)

/-- Modelled from the spec: the repository delegates topological ordering to
the external `topo_sort` crate, whose source is not part of this repository;
per section 4.1 of the spec it is modelled as repeated selection of
zero-indegree nodes in original input order, failing on a cycle. -/
def topo_sort_packages (packages : List Package) : Option (List Package) :=
  kahnAux packages.length packages

/-- The dependency-cycle error message of `topo_sort_packages`. -/
def dep_cycle_err : String :=
  "Dependency cycle detected! Resolve this using other cargo commands first (e.g. `cargo build` should fail with a decent error message)."

/-- The verify-mode failure message of `run_feature_aspect`. -/
def verify_err : String :=
  "failing because --verify was passed and changes were detected"

/-- The traversal loop over topologically sorted packages. -/
def run_loop (ctx : Context) : List Package → RunState → Except String Unit × RunState
  | [], st => (.ok (), st)
  | p :: ps, st =>
    match visit_package ctx p st with
    | (.error e, st') => (.error e, st')
    | (.ok _, st') => run_loop ctx ps st'

/-- The initial run state over the given documents. -/
def initState (docs : List (String × Doc)) : RunState := ⟨[], false, docs, [], [], []⟩

/-- The whole run (`run_feature_aspect`): order the packages, visit each in
turn, and in verify mode fail at the end when changes were detected. -/
def run_feature_aspect (ctx : Context) (pkgs : List Package) (docs : List (String × Doc)) :
    Except String Unit × RunState :=
  match topo_sort_packages pkgs with
  | none => (.error dep_cycle_err, initState docs)
  | some sorted =>
    match run_loop ctx sorted (initState docs) with
    | (.error e, st) => (.error e, st)
    | (.ok _, st) =>
      if ctx.verify && st.has_changes then (.error verify_err, st) else (.ok (), st)

/-- The dependency edge among workspace members: `p` depends on `q`. -/
def depRel (pkgs : List Package) (p q : Package) : Prop :=
  p ∈ pkgs ∧ q ∈ pkgs ∧ q.name ∈ p.dependencies.map Dependency.name

/-- The parameters reported as additions, in emission order. -/
def addedParams (lines : List Line) : List String :=
  lines.filterMap (fun l => match l with
    | .wouldAdd _ p => some p
    | _ => none)

/-- The parameters reported as removals, in emission order. -/
def removedParams (lines : List Line) : List String :=
  lines.filterMap (fun l => match l with
    | .wouldRemove _ p => some p
    | _ => none)

/-! Basic lemmas about the list helpers. -/

theorem memB_iff {α : Type} [DecidableEq α] (x : α) (l : List α) :
    memB x l = true ↔ x ∈ l := by
  simp [memB, List.any_eq_true]

theorem memB_eq_false_iff {α : Type} [DecidableEq α] (x : α) (l : List α) :
    memB x l = false ↔ x ∉ l := by
  rw [← memB_iff x l]
  cases memB x l <;> simp

theorem position?_spec {α : Type} (p : α → Bool) :
    ∀ (l : List α) (i : Nat), position? p l = some i →
      ∃ a, l.get? i = some a ∧ p a = true := by
  intro l
  induction l with
  | nil => intro i h; simp [position?] at h
  | cons x xs ih =>
    intro i h
    by_cases hx : p x = true
    · simp [position?, hx] at h
      subst h
      exact ⟨x, rfl, hx⟩
    · simp [position?, hx] at h
      obtain ⟨j, hj, hji⟩ := h
      obtain ⟨a, ha, hpa⟩ := ih j hj
      exact ⟨a, by simpa [← hji] using ha, hpa⟩

theorem position?_isSome_of_mem {α : Type} (p : α → Bool) {a : α} :
    ∀ (l : List α), a ∈ l → p a = true → ∃ i, position? p l = some i := by
  intro l
  induction l with
  | nil => intro h; simp at h
  | cons x xs ih =>
    intro hmem hpa
    by_cases hx : p x = true
    · exact ⟨0, by simp [position?, hx]⟩
    · rcases List.mem_cons.mp hmem with rfl | hmem'
      · exact absurd hpa hx
      · obtain ⟨i, hi⟩ := ih hmem' hpa
        exact ⟨i + 1, by simp [position?, hx, hi]⟩

theorem position?_lt_length {α : Type} (p : α → Bool) {l : List α} {i : Nat}
    (h : position? p l = some i) : i < l.length := by
  obtain ⟨a, ha, -⟩ := position?_spec p l i h
  exact List.get?_eq_some.mp ha |>.1

theorem removeAt_get?_lt {α : Type} :
    ∀ (l : List α) (i j : Nat), j < i → (removeAt l i).get? j = l.get? j := by
  intro l
  induction l with
  | nil => intro i j _; simp [removeAt]
  | cons x xs ih =>
    intro i j hji
    match i, j with
    | 0, j => omega
    | i + 1, 0 => simp [removeAt]
    | i + 1, j + 1 =>
      simp only [removeAt, List.get?]
      exact ih i j (by omega)

theorem removeAt_get?_ge {α : Type} :
    ∀ (l : List α) (i j : Nat), i ≤ j → (removeAt l i).get? j = l.get? (j + 1) := by
  intro l
  induction l with
  | nil => intro i j _; simp [removeAt]
  | cons x xs ih =>
    intro i j hij
    match i, j with
    | 0, j => simp [removeAt]
    | i + 1, 0 => omega
    | i + 1, j + 1 =>
      simp only [removeAt, List.get?]
      exact ih i j (by omega)

theorem removeAt_length {α : Type} :
    ∀ (l : List α) (i : Nat), i < l.length → (removeAt l i).length = l.length - 1 := by
  intro l
  induction l with
  | nil => intro i h; simp at h
  | cons x xs ih =>
    intro i h
    match i with
    | 0 => simp [removeAt]
    | i + 1 =>
      have := ih i (by simpa using Nat.lt_of_succ_lt_succ h)
      simp only [removeAt, List.length_cons, this]
      have : 0 < xs.length := by
        have := Nat.lt_of_succ_lt_succ h; omega
      omega

theorem insertBy_perm {α : Type} (le : α → α → Bool) (x : α) :
    ∀ (l : List α), List.Perm (insertBy le x l) (x :: l) := by
  intro l
  induction l with
  | nil => simp [insertBy]
  | cons y ys ih =>
    by_cases h : le x y = true
    · simp [insertBy, h]
    · simp only [insertBy, h, if_false]
      exact List.Perm.trans (List.Perm.cons y ih) (List.Perm.swap x y ys)

theorem sortBy_perm {α : Type} (le : α → α → Bool) :
    ∀ (l : List α), List.Perm (sortBy le l) l := by
  intro l
  induction l with
  | nil => simp [sortBy]
  | cons x xs ih =>
    exact List.Perm.trans (insertBy_perm le x (sortBy le xs)) (List.Perm.cons x ih)

theorem mem_sortBy {α : Type} (le : α → α → Bool) (x : α) (l : List α) :
    x ∈ sortBy le l ↔ x ∈ l :=
  (sortBy_perm le l).mem_iff

theorem insertBy_sorted {α : Type} (le : α → α → Bool)
    (htot : ∀ a b, le a b = true ∨ le b a = true)
    (htrans : ∀ a b c, le a b = true → le b c = true → le a c = true)
    (x : α) :
    ∀ (l : List α), List.Pairwise (fun a b => le a b = true) l →
      List.Pairwise (fun a b => le a b = true) (insertBy le x l) := by
  intro l
  induction l with
  | nil => intro _; simp [insertBy]
  | cons y ys ih =>
    intro hp
    rcases List.pairwise_cons.mp hp with ⟨hy, hys⟩
    by_cases h : le x y = true
    · simp only [insertBy, h, if_true]
      refine List.pairwise_cons.mpr ⟨?_, hp⟩
      intro b hb
      rcases List.mem_cons.mp hb with rfl | hb'
      · exact h
      · exact htrans x y b h (hy b hb')
    · simp only [insertBy, h, if_false]
      refine List.pairwise_cons.mpr ⟨?_, ih hys⟩
      intro b hb
      have hb' := (insertBy_perm le x ys).mem_iff.mp hb
      rcases List.mem_cons.mp hb' with hbx | hb''
      · rw [hbx]
        rcases htot x y with hxy | hyx
        · exact absurd hxy h
        · exact hyx
      · exact hy b hb''

theorem sortBy_sorted {α : Type} (le : α → α → Bool)
    (htot : ∀ a b, le a b = true ∨ le b a = true)
    (htrans : ∀ a b c, le a b = true → le b c = true → le a c = true) :
    ∀ (l : List α), List.Pairwise (fun a b => le a b = true) (sortBy le l) := by
  intro l
  induction l with
  | nil => simp [sortBy]
  | cons x xs ih => exact insertBy_sorted le htot htrans x (sortBy le xs) ih

/-- Membership after deleting a strictly descending list of positions: exactly
the entries at surviving positions remain. -/
theorem foldl_removeAt_mem {α : Type} :
    ∀ (idxs : List Nat), List.Pairwise (fun a b => b < a) idxs →
      ∀ (l : List α), (∀ i ∈ idxs, i < l.length) →
        ∀ (x : α), x ∈ idxs.foldl removeAt l ↔ ∃ j, l.get? j = some x ∧ j ∉ idxs := by
  intro idxs
  induction idxs with
  | nil =>
    intro _ l _ x
    simp only [List.foldl_nil, List.not_mem_nil, not_false_iff, and_true]
    exact List.mem_iff_get?
  | cons i rest ih =>
    intro hp l hb x
    rcases List.pairwise_cons.mp hp with ⟨hi, hrest⟩
    have hil : i < l.length := hb i (List.mem_cons_self i rest)
    have hb' : ∀ j ∈ rest, j < (removeAt l i).length := by
      intro j hj
      rw [removeAt_length l i hil]
      have := hi j hj
      omega
    have key := ih hrest (removeAt l i) hb' x
    simp only [List.foldl_cons]
    rw [key]
    constructor
    · rintro ⟨j, hg, hnr⟩
      by_cases hji : j < i
      · refine ⟨j, ?_, ?_⟩
        · rw [← removeAt_get?_lt l i j hji]; exact hg
        · intro hmem
          rcases List.mem_cons.mp hmem with rfl | h
          · omega
          · exact hnr h
      · refine ⟨j + 1, ?_, ?_⟩
        · rw [← removeAt_get?_ge l i j (by omega)]; exact hg
        · intro hmem
          rcases List.mem_cons.mp hmem with h | h
          · omega
          · have := hi (j + 1) h; omega
    · rintro ⟨j, hg, hnij⟩
      have hji : j ≠ i := fun h => hnij (h ▸ List.mem_cons_self i rest)
      have hjr : j ∉ rest := fun h => hnij (List.mem_cons_of_mem i h)
      by_cases hlt : j < i
      · exact ⟨j, by rw [removeAt_get?_lt l i j hlt]; exact hg, hjr⟩
      · have hgt : i < j := by omega
        refine ⟨j - 1, ?_, ?_⟩
        · rw [removeAt_get?_ge l i (j - 1) (by omega)]
          have : j - 1 + 1 = j := by omega
          rw [this]; exact hg
        · intro h
          have := hi (j - 1) h
          omega

/-! Shape lemmas about forwarding specs. -/

theorem fwd_data (a f : String) : (fwd a f).data = (a.data ++ ['/']) ++ f.data := by
  simp [fwd, String.data_append]

theorem fwdOpt_data (a f : String) : (fwdOpt a f).data = (a.data ++ ['?', '/']) ++ f.data := by
  simp [fwdOpt, String.data_append]

theorem fwd_inj {a b f : String} (h : fwd a f = fwd b f) : a = b := by
  have hd := congrArg String.data h
  rw [fwd_data, fwd_data] at hd
  have h1 := List.append_cancel_right hd
  have h2 := List.append_cancel_right h1
  exact String.ext h2

theorem fwdOpt_inj {a b f : String} (h : fwdOpt a f = fwdOpt b f) : a = b := by
  have hd := congrArg String.data h
  rw [fwdOpt_data, fwdOpt_data] at hd
  have h1 := List.append_cancel_right hd
  have h2 := List.append_cancel_right h1
  exact String.ext h2

theorem fwd_ne_fwdOpt {a b f : String} (hq : '?' ∉ a.data) : fwd a f ≠ fwdOpt b f := by
  intro h
  have hd := congrArg String.data h
  rw [fwd_data, fwdOpt_data] at hd
  have h1 := List.append_cancel_right hd
  have h2 : a.data ++ ['/'] = (b.data ++ ['?']) ++ ['/'] := by
    rw [h1]; simp
  have h3 := List.append_cancel_right h2
  exact hq (h3 ▸ List.mem_append_right b.data (List.mem_singleton.mpr rfl))

/-! Characterization of the change plan. -/

theorem planDeps_fst_mem (feature : String) (scope : List String) :
    ∀ (deps : List Dependency) (x : String),
      x ∈ (planDeps feature scope deps).1 ↔
        ∃ d ∈ deps, memB d.name scope = true ∧
          x = (if d.optional then fwdOpt d.name feature else fwd d.name feature) := by
  intro deps
  induction deps with
  | nil => intro x; simp [planDeps]
  | cons d rest ih =>
    intro x
    cases hv : memB d.name scope <;> cases ho : d.optional <;>
      simp only [planDeps, hv, ho, Bool.false_eq_true, if_true, if_false, List.mem_cons, ih] <;>
      constructor
    · rintro ⟨d', hd', h1, h2⟩
      exact ⟨d', Or.inr hd', h1, h2⟩
    · rintro ⟨d', hd' | hd', h1, h2⟩
      · rw [hd'] at h1; rw [hv] at h1; exact absurd h1 (by simp)
      · exact ⟨d', hd', h1, h2⟩
    · rintro ⟨d', hd', h1, h2⟩
      exact ⟨d', Or.inr hd', h1, h2⟩
    · rintro ⟨d', hd' | hd', h1, h2⟩
      · rw [hd'] at h1; rw [hv] at h1; exact absurd h1 (by simp)
      · exact ⟨d', hd', h1, h2⟩
    · rintro (rfl | ⟨d', hd', h1, h2⟩)
      · exact ⟨d, Or.inl rfl, hv, by rw [ho]; simp⟩
      · exact ⟨d', Or.inr hd', h1, h2⟩
    · rintro ⟨d', hd' | hd', h1, h2⟩
      · rw [hd'] at h2; rw [ho] at h2; simp at h2; exact Or.inl h2
      · exact Or.inr ⟨d', hd', h1, h2⟩
    · rintro (rfl | ⟨d', hd', h1, h2⟩)
      · exact ⟨d, Or.inl rfl, hv, by rw [ho]; simp⟩
      · exact ⟨d', Or.inr hd', h1, h2⟩
    · rintro ⟨d', hd' | hd', h1, h2⟩
      · rw [hd'] at h2; rw [ho] at h2; simp at h2; exact Or.inl h2
      · exact Or.inr ⟨d', hd', h1, h2⟩

theorem planDeps_snd_mem (feature : String) (scope : List String) :
    ∀ (deps : List Dependency) (x : String),
      x ∈ (planDeps feature scope deps).2 ↔
        ∃ d ∈ deps, memB d.name scope = true ∧
          x = (if d.optional then fwd d.name feature else fwdOpt d.name feature) := by
  intro deps
  induction deps with
  | nil => intro x; simp [planDeps]
  | cons d rest ih =>
    intro x
    cases hv : memB d.name scope <;> cases ho : d.optional <;>
      simp only [planDeps, hv, ho, Bool.false_eq_true, if_true, if_false, List.mem_cons, ih] <;>
      constructor
    · rintro ⟨d', hd', h1, h2⟩
      exact ⟨d', Or.inr hd', h1, h2⟩
    · rintro ⟨d', hd' | hd', h1, h2⟩
      · rw [hd'] at h1; rw [hv] at h1; exact absurd h1 (by simp)
      · exact ⟨d', hd', h1, h2⟩
    · rintro ⟨d', hd', h1, h2⟩
      exact ⟨d', Or.inr hd', h1, h2⟩
    · rintro ⟨d', hd' | hd', h1, h2⟩
      · rw [hd'] at h1; rw [hv] at h1; exact absurd h1 (by simp)
      · exact ⟨d', hd', h1, h2⟩
    · rintro (rfl | ⟨d', hd', h1, h2⟩)
      · exact ⟨d, Or.inl rfl, hv, by rw [ho]; simp⟩
      · exact ⟨d', Or.inr hd', h1, h2⟩
    · rintro ⟨d', hd' | hd', h1, h2⟩
      · rw [hd'] at h2; rw [ho] at h2; simp at h2; exact Or.inl h2
      · exact Or.inr ⟨d', hd', h1, h2⟩
    · rintro (rfl | ⟨d', hd', h1, h2⟩)
      · exact ⟨d, Or.inl rfl, hv, by rw [ho]; simp⟩
      · exact ⟨d', Or.inr hd', h1, h2⟩
    · rintro ⟨d', hd' | hd', h1, h2⟩
      · rw [hd'] at h2; rw [ho] at h2; simp at h2; exact Or.inl h2
      · exact Or.inr ⟨d', hd', h1, h2⟩

theorem dep_name_inj {deps : List Dependency}
    (h1 : (deps.map Dependency.name).Nodup) :
    ∀ d ∈ deps, ∀ d' ∈ deps, d.name = d'.name → d = d' := by
  intro d hd d' hd' hn
  exact List.inj_on_of_nodup_map h1 hd hd' hn

/-- The remove list of the dependency plan has no duplicates when dependency
names are distinct and free of question marks. -/
theorem planRemove_nodup (feature : String) (scope : List String)
    {deps : List Dependency}
    (h1 : (deps.map Dependency.name).Nodup)
    (h2 : ∀ d ∈ deps, '?' ∉ d.name.data) :
    (planDeps feature scope deps).2.Nodup := by
  induction deps with
  | nil => simp [planDeps]
  | cons d rest ih =>
    have h1' : (rest.map Dependency.name).Nodup := (List.nodup_cons.mp h1).2
    have hnotin : d.name ∉ rest.map Dependency.name := (List.nodup_cons.mp h1).1
    have h2' : ∀ d' ∈ rest, '?' ∉ d'.name.data :=
      fun d' hd' => h2 d' (List.mem_cons_of_mem d hd')
    have ihr := ih h1' h2'
    by_cases hs : memB d.name scope = true
    · have hhead : ∀ spec, (spec = fwd d.name feature ∨ spec = fwdOpt d.name feature) →
          spec ∉ (planDeps feature scope rest).2 := by
        intro spec hspec hmem
        obtain ⟨d', hd', hs', hx⟩ := (planDeps_snd_mem feature scope rest spec).mp hmem
        rcases hspec with rfl | rfl
        · by_cases ho' : d'.optional = true
          · simp only [ho', if_true] at hx
            have := fwd_inj hx
            exact hnotin (this ▸ List.mem_map_of_mem Dependency.name hd')
          · simp only [ho', Bool.false_eq_true, if_false] at hx
            exact fwd_ne_fwdOpt (h2 d (List.mem_cons_self d rest)) hx
        · by_cases ho' : d'.optional = true
          · simp only [ho', if_true] at hx
            exact fwd_ne_fwdOpt (h2' d' hd') hx.symm
          · simp only [ho', Bool.false_eq_true, if_false] at hx
            have := fwdOpt_inj hx
            exact hnotin (this ▸ List.mem_map_of_mem Dependency.name hd')
      cases ho : d.optional
      · simp only [planDeps, hs, ho, Bool.false_eq_true, if_true, if_false]
        exact List.nodup_cons.mpr ⟨hhead _ (Or.inr rfl), ihr⟩
      · simp only [planDeps, hs, ho, if_true]
        exact List.nodup_cons.mpr ⟨hhead _ (Or.inl rfl), ihr⟩
    · simpa only [planDeps, hs, if_false] using ihr

/-- The dependency-derived add specs never occur in the remove list, given
distinct, question-mark-free dependency names. -/
theorem planDeps_disjoint (feature : String) (scope : List String)
    {deps : List Dependency}
    (h1 : (deps.map Dependency.name).Nodup)
    (h2 : ∀ d ∈ deps, '?' ∉ d.name.data) :
    ∀ x ∈ (planDeps feature scope deps).1, x ∉ (planDeps feature scope deps).2 := by
  intro x hx hmem
  obtain ⟨d, hd, -, hxd⟩ := (planDeps_fst_mem feature scope deps x).mp hx
  obtain ⟨d', hd', -, hxd'⟩ := (planDeps_snd_mem feature scope deps x).mp hmem
  by_cases ho : d.optional = true <;> by_cases ho' : d'.optional = true
  · simp only [ho, ho', if_true] at hxd hxd'
    exact fwd_ne_fwdOpt (h2 d' hd') (hxd'.symm.trans hxd)
  · simp only [ho, ho', Bool.false_eq_true, if_true, if_false] at hxd hxd'
    have hn := fwdOpt_inj (hxd'.symm.trans hxd)
    have := dep_name_inj h1 d' hd' d hd hn
    rw [this] at ho'
    exact ho' ho
  · simp only [ho, ho', Bool.false_eq_true, if_true, if_false] at hxd hxd'
    have hn := fwd_inj (hxd'.symm.trans hxd)
    have := dep_name_inj h1 d' hd' d hd hn
    rw [this] at ho'
    exact ho (by simpa using ho')
  · simp only [ho, ho', Bool.false_eq_true, if_false] at hxd hxd'
    exact fwd_ne_fwdOpt (h2 d hd) (hxd.symm.trans hxd')

/-- Disjointness of the full add and remove plans, adding the hypothesis that
included extra parameters avoid the remove list. -/
theorem plan_disjoint (feature : String) (scope : List String) (extras refs : List String)
    (pkg : Package)
    (h1 : (pkg.dependencies.map Dependency.name).Nodup)
    (h2 : ∀ d ∈ pkg.dependencies, '?' ∉ d.name.data)
    (h4 : ∀ x ∈ planExtras pkg extras refs, x ∉ (planDeps feature scope pkg.dependencies).2) :
    ∀ x ∈ (planParams feature scope extras refs pkg).1,
      x ∉ (planParams feature scope extras refs pkg).2 := by
  intro x hx
  simp only [planParams] at hx ⊢
  rcases List.mem_append.mp hx with hl | hr
  · exact planDeps_disjoint feature scope h1 h2 x hl
  · exact h4 x hr

/-! Behaviour of the patch applier on the feature array. -/

theorem natGe_total : ∀ a b : Nat, natGe a b = true ∨ natGe b a = true := by
  intro a b
  simp only [natGe, decide_eq_true_eq]
  omega

theorem natGe_trans : ∀ a b c : Nat, natGe a b = true → natGe b c = true → natGe a c = true := by
  intro a b c
  simp only [natGe, decide_eq_true_eq]
  omega

/-- After patching, every planned addition is present and every planned
removal is absent, provided the remove list and the current array have no
duplicates and additions never coincide with removals. -/
theorem patchArr_mem (sortFlag : Bool) (toAdd toRemove arr : List String)
    (hRemNodup : toRemove.Nodup)
    (hArrNodup : arr.Nodup)
    (hDisj : ∀ x ∈ toAdd, x ∉ toRemove) :
    (∀ p ∈ toAdd, p ∈ patchArr sortFlag toAdd toRemove arr) ∧
    (∀ r ∈ toRemove, r ∉ patchArr sortFlag toAdd toRemove arr) := by
  have hmem_patch : ∀ x, x ∈ patchArr sortFlag toAdd toRemove arr ↔
      x ∈ (sortBy natGe (toRemove.filterMap
            (fun p => position? (fun q => decide (q = p)) arr))).foldl removeAt arr
        ∨ x ∈ toAdd.filter (fun p => !(memB p arr)) := by
    intro x
    cases sortFlag <;> simp [patchArr, mem_sortBy, List.mem_append]
  set idxs := toRemove.filterMap (fun p => position? (fun q => decide (q = p)) arr) with hidxs
  set idxsSorted := sortBy natGe idxs with hidxsSorted
  have hvalid : ∀ i ∈ idxs, ∃ r ∈ toRemove, arr.get? i = some r := by
    intro i hi
    obtain ⟨r, hr, hfi⟩ := List.mem_filterMap.mp hi
    obtain ⟨a, ha, hpa⟩ := position?_spec _ arr i hfi
    have : a = r := by simpa using hpa
    exact ⟨r, hr, this ▸ ha⟩
  have hbound : ∀ i ∈ idxs, i < arr.length := by
    intro i hi
    obtain ⟨r, hr, hfi⟩ := List.mem_filterMap.mp hi
    exact position?_lt_length _ hfi
  have hndidxs : idxs.Nodup := by
    refine List.Nodup.filterMap ?_ hRemNodup
    intro r r' i hi hi'
    obtain ⟨a, ha, hpa⟩ := position?_spec _ arr i hi
    obtain ⟨a', ha', hpa'⟩ := position?_spec _ arr i hi'
    have h1 : a = r := by simpa using hpa
    have h2 : a' = r' := by simpa using hpa'
    have : a = a' := by
      have := ha.symm.trans ha'
      simpa using this
    rw [← h1, ← h2, this]
  have hpermS := sortBy_perm natGe idxs
  have hndS : idxsSorted.Nodup := (hpermS.nodup_iff).mpr hndidxs
  have hsortedS : List.Pairwise (fun a b => natGe a b = true) idxsSorted :=
    sortBy_sorted natGe natGe_total natGe_trans idxs
  have hgtS : List.Pairwise (fun a b : Nat => b < a) idxsSorted := by
    have hand := List.Pairwise.and hsortedS hndS
    exact hand.imp (fun h => by
      rcases h with ⟨hle, hne⟩
      simp only [natGe, decide_eq_true_eq] at hle
      omega)
  have hvalidS : ∀ i ∈ idxsSorted, ∃ r ∈ toRemove, arr.get? i = some r :=
    fun i hi => hvalid i (hpermS.mem_iff.mp hi)
  have hboundS : ∀ i ∈ idxsSorted, i < arr.length :=
    fun i hi => hbound i (hpermS.mem_iff.mp hi)
  have harr1 := foldl_removeAt_mem idxsSorted hgtS arr hboundS
  constructor
  · intro p hp
    rw [hmem_patch p]
    by_cases hmemarr : p ∈ arr
    · left
      rw [harr1 p]
      obtain ⟨j, hj⟩ := List.mem_iff_get?.mp hmemarr
      refine ⟨j, hj, ?_⟩
      intro hjin
      obtain ⟨r, hr, hget⟩ := hvalidS j hjin
      have : p = r := by
        have := hj.symm.trans hget
        simpa using this
      exact hDisj p hp (this ▸ hr)
    · right
      refine List.mem_filter.mpr ⟨hp, ?_⟩
      simp only [Bool.not_eq_true']
      exact (memB_eq_false_iff p arr).mpr hmemarr
  · intro r hr
    rw [hmem_patch r]
    rintro (hin1 | hin2)
    · rw [harr1 r] at hin1
      obtain ⟨j, hget, hnin⟩ := hin1
      have hmemarr : r ∈ arr := List.mem_iff_get?.mpr ⟨j, hget⟩
      obtain ⟨i, hi⟩ := position?_isSome_of_mem (fun q => decide (q = r)) arr hmemarr (by simp)
      have hiin : i ∈ idxs := List.mem_filterMap.mpr ⟨r, hr, hi⟩
      have hiinS : i ∈ idxsSorted := hpermS.mem_iff.mpr hiin
      obtain ⟨a, ha, hpa⟩ := position?_spec _ arr i hi
      have har : a = r := by simpa using hpa
      have hij : i = j := by
        refine List.getElem?_inj (hbound i hiin) hArrNodup ?_
        rw [← List.get?_eq_getElem?, ← List.get?_eq_getElem?, ha, hget, har]
      exact hnin (hij ▸ hiinS)
    · have hsub : r ∈ toAdd := (List.mem_filter.mp hin2).1
      exact hDisj r hsub hr

/-! Document access lemmas. -/

theorem lookupEntry_setEntry_self (k : String) (v : FeatureEntry) :
    ∀ (es : List (String × FeatureEntry)), lookupEntry (setEntry es k v) k = some v := by
  intro es
  induction es with
  | nil => simp [setEntry, lookupEntry]
  | cons e rest ih =>
    by_cases h : e.1 = k
    · simp [setEntry, lookupEntry, h]
    · simp [setEntry, lookupEntry, h, ih]

theorem lookupEntry_setEntry_other (k k' : String) (v : FeatureEntry) (h : k' ≠ k) :
    ∀ (es : List (String × FeatureEntry)),
      lookupEntry (setEntry es k v) k' = lookupEntry es k' := by
  intro es
  induction es with
  | nil =>
    simp only [setEntry, lookupEntry]
    rw [if_neg (fun hh => h hh.symm)]
  | cons e rest ih =>
    by_cases he : e.1 = k
    · have : ¬ k = k' := fun hh => h hh.symm
      simp [setEntry, lookupEntry, he, this, ih]
    · simp [setEntry, lookupEntry, he, ih]

theorem currentParams_after (feature r : String) (es : List (String × FeatureEntry))
    (a : List String) :
    currentParams feature ⟨some (.table (setEntry es feature (.arr a))), r⟩ = a := by
  simp [currentParams, lookupEntry_setEntry_self]

/-- A successful apply step read exactly the literal parameter list that the
dry-run path would read. -/
theorem getFeatureArr_eq_currentParams {pkg : Package} {feature : String} {doc : Doc}
    {es : List (String × FeatureEntry)} {arr : List String}
    (hes : getFeatureEntries pkg doc = .ok es)
    (harr : getFeatureArr pkg feature es = .ok arr) :
    arr = currentParams feature doc := by
  cases hdf : doc.features with
  | none =>
    simp [getFeatureEntries, hdf] at hes
    subst hes
    simp [getFeatureArr, lookupEntry] at harr
    simp [currentParams, hdf, ← harr]
  | some ff =>
    cases ff with
    | table es0 =>
      simp [getFeatureEntries, hdf] at hes
      subst hes
      cases hle : lookupEntry es0 feature with
      | none =>
        simp [getFeatureArr, hle] at harr
        simp [currentParams, hdf, hle, ← harr]
      | some fe =>
        cases fe with
        | arr ps =>
          simp [getFeatureArr, hle] at harr
          simp [currentParams, hdf, hle, ← harr]
        | notArr =>
          simp [getFeatureArr, hle] at harr
    | notTable =>
      simp [getFeatureEntries, hdf] at hes

/-- Shape of a successful apply-mode visit: the rest of the document is
preserved, the feature array is exactly the patched array, no report lines or
change flags are produced, and the events are the optional debug print
followed by the single write-back. -/
theorem visit_apply_shape {sortFlag : Bool} {feature : String} {scope : List String}
    {extras refs : List String} {pkg : Package} {doc : Doc} {res : VisitResult}
    (h : visit_aspect_feature false false sortFlag feature scope extras refs pkg doc = .ok res) :
    res.doc.rest = doc.rest ∧
    currentParams feature res.doc =
      patchArr sortFlag (planParams feature scope extras refs pkg).1
        (planParams feature scope extras refs pkg).2 (currentParams feature doc) ∧
    res.lines = [] ∧ res.changed = false ∧
    res.events = (if pkg.name = "cyw43-pio" then [Event.stdout "break"] else [])
      ++ [Event.write pkg.manifest_path res.doc] := by
  simp only [visit_aspect_feature, Bool.or_self, Bool.false_eq_true, if_false] at h
  cases hes : getFeatureEntries pkg doc with
  | error e => simp [hes] at h
  | ok es =>
    simp only [hes] at h
    cases harr : getFeatureArr pkg feature es with
    | error e => simp [harr] at h
    | ok arr =>
      simp only [harr, Except.ok.injEq] at h
      have hcur := getFeatureArr_eq_currentParams hes harr
      subst hcur
      rw [← h]
      refine ⟨rfl, ?_, rfl, rfl, rfl⟩
      exact currentParams_after feature doc.rest es _

theorem planParams_snd (feature : String) (scope : List String) (extras refs : List String)
    (pkg : Package) :
    (planParams feature scope extras refs pkg).2 = (planDeps feature scope pkg.dependencies).2 := rfl

/-- C9 (amended): the plan-and-patch step is a fixed point of the diff for a
package whose dependency names are distinct and question-mark free, whose
current feature array has no duplicate entries, and whose included extra
parameters avoid the wrong-shape forwarding specs. -/
theorem c9_diff_idempotent (sortFlag : Bool) (feature : String) (scope : List String)
    (extras refs : List String) (pkg : Package) (doc : Doc) (res : VisitResult)
    (h1 : (pkg.dependencies.map Dependency.name).Nodup)
    (h2 : ∀ d ∈ pkg.dependencies, '?' ∉ d.name.data)
    (h3 : (currentParams feature doc).Nodup)
    (h4 : ∀ x ∈ planExtras pkg extras refs, x ∉ (planDeps feature scope pkg.dependencies).2)
    (happly : visit_aspect_feature false false sortFlag feature scope extras refs pkg doc = .ok res) :
    visit_aspect_feature true false sortFlag feature scope extras refs pkg res.doc =
      .ok ⟨res.doc, [], [], false⟩ := by
  obtain ⟨-, hcur, -, -, -⟩ := visit_apply_shape happly
  have hRemNodup : (planParams feature scope extras refs pkg).2.Nodup := by
    rw [planParams_snd]
    exact planRemove_nodup feature scope h1 h2
  have hDisj := plan_disjoint feature scope extras refs pkg h1 h2 h4
  have hDisj' : ∀ x ∈ (planParams feature scope extras refs pkg).1,
      x ∉ (planParams feature scope extras refs pkg).2 := hDisj
  have hmem := patchArr_mem sortFlag (planParams feature scope extras refs pkg).1
    (planParams feature scope extras refs pkg).2 (currentParams feature doc) hRemNodup h3 hDisj'
  have hAddNil : (planParams feature scope extras refs pkg).1.filter
      (fun p => !(memB p (currentParams feature res.doc))) = [] := by
    rw [List.filter_eq_nil_iff]
    intro p hp
    simp only [Bool.not_eq_true', Bool.not_eq_false]
    refine (memB_iff p _).mpr ?_
    rw [hcur]
    exact hmem.1 p hp
  have hRemNil : (planParams feature scope extras refs pkg).2.filter
      (fun p => memB p (currentParams feature res.doc)) = [] := by
    rw [List.filter_eq_nil_iff]
    intro r hrr
    simp only [Bool.not_eq_true]
    refine (memB_eq_false_iff r _).mpr ?_
    rw [hcur]
    exact hmem.2 r hrr
  simp only [visit_aspect_feature, Bool.true_or, if_true, hAddNil, hRemNil]
  simp [mkDryLines]

/-! Report-line extraction lemmas. -/

theorem addedParams_append (a b : List Line) :
    addedParams (a ++ b) = addedParams a ++ addedParams b := by
  simp [addedParams, List.filterMap_append]

theorem removedParams_append (a b : List Line) :
    removedParams (a ++ b) = removedParams a ++ removedParams b := by
  simp [removedParams, List.filterMap_append]

theorem addedParams_map_add (f : String) (l : List String) :
    addedParams (l.map (Line.wouldAdd f)) = l := by
  induction l with
  | nil => rfl
  | cons x xs ih =>
    simp only [addedParams, List.map_cons, List.filterMap_cons] at ih ⊢
    rw [ih]

theorem addedParams_map_remove (f : String) (l : List String) :
    addedParams (l.map (Line.wouldRemove f)) = [] := by
  induction l with
  | nil => rfl
  | cons x xs ih =>
    simp only [addedParams, List.map_cons, List.filterMap_cons] at ih ⊢
    exact ih

theorem removedParams_map_remove (f : String) (l : List String) :
    removedParams (l.map (Line.wouldRemove f)) = l := by
  induction l with
  | nil => rfl
  | cons x xs ih =>
    simp only [removedParams, List.map_cons, List.filterMap_cons] at ih ⊢
    rw [ih]

theorem removedParams_map_add (f : String) (l : List String) :
    removedParams (l.map (Line.wouldAdd f)) = [] := by
  induction l with
  | nil => rfl
  | cons x xs ih =>
    simp only [removedParams, List.map_cons, List.filterMap_cons] at ih ⊢
    exact ih

theorem addedParams_nil_lines : addedParams [] = [] := rfl

theorem removedParams_nil_lines : removedParams [] = [] := rfl

theorem addedParams_addSummary (p f : String) (ps : List String) :
    addedParams [Line.addSummary p f ps] = [] := rfl

theorem addedParams_removeSummary (p f : String) (ps : List String) :
    addedParams [Line.removeSummary p f ps] = [] := rfl

theorem removedParams_addSummary (p f : String) (ps : List String) :
    removedParams [Line.addSummary p f ps] = [] := rfl

theorem removedParams_removeSummary (p f : String) (ps : List String) :
    removedParams [Line.removeSummary p f ps] = [] := rfl

theorem addedParams_mkDryLines (pkgName feature : String) (toAdd toRemove : List String) :
    addedParams (mkDryLines pkgName feature toAdd toRemove) = toAdd := by
  unfold mkDryLines
  cases toAdd <;> cases toRemove <;>
    simp only [List.isEmpty_nil, List.isEmpty_cons, if_true, if_false, Bool.false_eq_true,
      addedParams_append, addedParams_map_add, addedParams_map_remove,
      addedParams_addSummary, addedParams_removeSummary, addedParams_nil_lines,
      List.append_nil, List.nil_append]

theorem removedParams_mkDryLines (pkgName feature : String) (toAdd toRemove : List String) :
    removedParams (mkDryLines pkgName feature toAdd toRemove) = toRemove := by
  unfold mkDryLines
  cases toAdd <;> cases toRemove <;>
    simp only [List.isEmpty_nil, List.isEmpty_cons, if_true, if_false, Bool.false_eq_true,
      removedParams_append, removedParams_map_remove, removedParams_map_add,
      removedParams_addSummary, removedParams_removeSummary, removedParams_nil_lines,
      List.append_nil, List.nil_append]

/-- Shape of a dry-run/verify visit: the document is untouched, no events are
emitted, and the report is built from the diffed plan. -/
theorem visit_dry_shape {dryRun verify sortFlag : Bool} {feature : String}
    {scope extras refs : List String} {pkg : Package} {doc : Doc}
    (hmode : (dryRun || verify) = true) :
    visit_aspect_feature dryRun verify sortFlag feature scope extras refs pkg doc =
      .ok ⟨doc,
        mkDryLines pkg.name feature
          ((planParams feature scope extras refs pkg).1.filter
            (fun p => !(memB p (currentParams feature doc))))
          ((planParams feature scope extras refs pkg).2.filter
            (fun p => memB p (currentParams feature doc))),
        [],
        !((planParams feature scope extras refs pkg).1.filter
            (fun p => !(memB p (currentParams feature doc)))).isEmpty
          || !((planParams feature scope extras refs pkg).2.filter
            (fun p => memB p (currentParams feature doc))).isEmpty⟩ := by
  simp only [visit_aspect_feature, hmode, if_true]

theorem position?_eq_none {α : Type} (p : α → Bool) :
    ∀ (l : List α), (∀ a ∈ l, p a = false) → position? p l = none := by
  intro l
  induction l with
  | nil => intro _; rfl
  | cons x xs ih =>
    intro h
    have hx := h x (List.mem_cons_self x xs)
    simp only [position?, hx, Bool.false_eq_true, if_false]
    rw [ih (fun a ha => h a (List.mem_cons_of_mem x ha))]
    rfl

/-- With an empty effective plan the patch at most re-sorts the array. -/
theorem patchArr_empty (sortFlag : Bool) (toAdd toRemove arr : List String)
    (hadd : ∀ p ∈ toAdd, memB p arr = true)
    (hrem : ∀ p ∈ toRemove, memB p arr = false) :
    patchArr sortFlag toAdd toRemove arr =
      (if sortFlag then sortBy sortOrd arr else arr) := by
  have h1 : toAdd.filter (fun p => !(memB p arr)) = [] := by
    rw [List.filter_eq_nil_iff]
    intro p hp
    simp [hadd p hp]
  have h2 : toRemove.filterMap (fun p => position? (fun q => decide (q = p)) arr) = [] := by
    rw [List.filterMap_eq_nil_iff]
    intro p hp
    refine position?_eq_none _ arr ?_
    intro a ha
    have : p ∉ arr := (memB_eq_false_iff p arr).mp (hrem p hp)
    simp only [decide_eq_false_iff_not]
    intro hap
    exact this (hap ▸ ha)
  simp only [patchArr, h1, h2]
  cases sortFlag <;> simp [sortBy]

/-- C1 (amended): whenever the apply-mode patch step succeeds, the document is
written back, even when the filtered add-set and remove-set are both empty; in
that case the rest of the document is preserved and the feature array is at
most re-sorted. -/
theorem c1_apply_always_writes (sortFlag : Bool) (feature : String)
    (scope extras refs : List String) (pkg : Package) (doc : Doc) (res : VisitResult)
    (hadd : ∀ p ∈ (planParams feature scope extras refs pkg).1,
      memB p (currentParams feature doc) = true)
    (hrem : ∀ p ∈ (planParams feature scope extras refs pkg).2,
      memB p (currentParams feature doc) = false)
    (h : visit_aspect_feature false false sortFlag feature scope extras refs pkg doc = .ok res) :
    Event.write pkg.manifest_path res.doc ∈ res.events ∧
    res.doc.rest = doc.rest ∧
    currentParams feature res.doc =
      (if sortFlag then sortBy sortOrd (currentParams feature doc)
       else currentParams feature doc) := by
  obtain ⟨hrest, hcur, -, -, hev⟩ := visit_apply_shape h
  refine ⟨?_, hrest, ?_⟩
  · rw [hev]
    exact List.mem_append_right _ (List.mem_singleton.mpr rfl)
  · rw [hcur]
    exact patchArr_empty sortFlag _ _ _ hadd hrem

/-- C1 counterexample: an in-scope package with an empty change plan still has
its document rewritten by the apply path, and sorting even changes its
content. -/
theorem c1_counterexample :
    planParams "f" [] [] [] ⟨"p", [], [], "p/Cargo.toml"⟩ = ([], []) ∧
    visit_aspect_feature false false true "f" [] [] [] ⟨"p", [], [], "p/Cargo.toml"⟩
        ⟨some (.table [("f", .arr ["b/f", "a/f"])]), "rest"⟩ =
      .ok ⟨⟨some (.table [("f", .arr ["a/f", "b/f"])]), "rest"⟩, [],
        [Event.write "p/Cargo.toml" ⟨some (.table [("f", .arr ["a/f", "b/f"])]), "rest"⟩],
        false⟩ ∧
    (⟨some (.table [("f", .arr ["a/f", "b/f"])]), "rest"⟩ : Doc) ≠
      ⟨some (.table [("f", .arr ["b/f", "a/f"])]), "rest"⟩ := by
  refine ⟨rfl, ?_, by decide⟩
  rfl

/-- C1 witness for the amended theorem at a concrete empty-plan input. -/
theorem c1_apply_always_writes_witness :
    Event.write "p/Cargo.toml" (⟨some (.table [("f", .arr ["a/f", "b/f"])]), "rest"⟩ : Doc) ∈
      [Event.write "p/Cargo.toml" (⟨some (.table [("f", .arr ["a/f", "b/f"])]), "rest"⟩ : Doc)] ∧
    ("rest" : String) = "rest" ∧
    currentParams "f" (⟨some (.table [("f", .arr ["a/f", "b/f"])]), "rest"⟩ : Doc) =
      (if true then sortBy sortOrd (currentParams "f"
          (⟨some (.table [("f", .arr ["b/f", "a/f"])]), "rest"⟩ : Doc))
       else currentParams "f" (⟨some (.table [("f", .arr ["b/f", "a/f"])]), "rest"⟩ : Doc)) :=
  c1_apply_always_writes true "f" [] [] [] ⟨"p", [], [], "p/Cargo.toml"⟩
    ⟨some (.table [("f", .arr ["b/f", "a/f"])]), "rest"⟩
    ⟨⟨some (.table [("f", .arr ["a/f", "b/f"])]), "rest"⟩, [],
      [Event.write "p/Cargo.toml" ⟨some (.table [("f", .arr ["a/f", "b/f"])]), "rest"⟩], false⟩
    (by decide) (by decide) rfl

/-- C2 (amended): in dry-run/verify mode a successful visit emits exactly one
line per added parameter and one per removed parameter of the diffed plan, in
plan order (dependency order, then extra parameters, then referenced leaf
features); the change flag is set exactly when either list is non-empty.  The
emitted lines are not sorted (see the counterexample). -/
theorem c2_report_lines (dryRun verify sortFlag : Bool) (feature : String)
    (scope extras refs : List String) (pkg : Package) (doc : Doc) (res : VisitResult)
    (hmode : (dryRun || verify) = true)
    (hvisit : visit_aspect_feature dryRun verify sortFlag feature scope extras refs pkg doc =
      .ok res) :
    addedParams res.lines =
      (planParams feature scope extras refs pkg).1.filter
        (fun p => !(memB p (currentParams feature doc))) ∧
    removedParams res.lines =
      (planParams feature scope extras refs pkg).2.filter
        (fun p => memB p (currentParams feature doc)) ∧
    res.changed =
      (!(addedParams res.lines).isEmpty || !(removedParams res.lines).isEmpty) := by
  rw [visit_dry_shape hmode] at hvisit
  simp only [Except.ok.injEq] at hvisit
  rw [← hvisit]
  refine ⟨addedParams_mkDryLines _ _ _ _, removedParams_mkDryLines _ _ _ _, ?_⟩
  rw [addedParams_mkDryLines, removedParams_mkDryLines]

/-- C2 counterexample: two in-scope dependencies listed as `b` then `a` are
reported in that order, which is not sorted. -/
theorem c2_counterexample :
    visit_aspect_feature true false true "f" ["b", "a"] [] []
        ⟨"p", [⟨"b", false⟩, ⟨"a", false⟩], [], "p/Cargo.toml"⟩
        ⟨some (.table [("f", .arr [])]), "rest"⟩ =
      .ok ⟨⟨some (.table [("f", .arr [])]), "rest"⟩,
        [Line.wouldAdd "f" "b/f", Line.wouldAdd "f" "a/f",
         Line.addSummary "p" "f" ["b/f", "a/f"]], [], true⟩ ∧
    sortBy sortOrd ["b/f", "a/f"] ≠ ["b/f", "a/f"] := by
  refine ⟨rfl, by decide⟩

/-- C2 witness for the amended theorem at a concrete input. -/
theorem c2_report_lines_witness :
    addedParams [Line.wouldAdd "f" "b/f", Line.wouldAdd "f" "a/f",
        Line.addSummary "p" "f" ["b/f", "a/f"]] =
      (planParams "f" ["b", "a"] [] [] ⟨"p", [⟨"b", false⟩, ⟨"a", false⟩], [], "p/Cargo.toml"⟩).1.filter
        (fun p => !(memB p (currentParams "f" ⟨some (.table [("f", .arr [])]), "rest"⟩))) ∧
    removedParams [Line.wouldAdd "f" "b/f", Line.wouldAdd "f" "a/f",
        Line.addSummary "p" "f" ["b/f", "a/f"]] =
      (planParams "f" ["b", "a"] [] [] ⟨"p", [⟨"b", false⟩, ⟨"a", false⟩], [], "p/Cargo.toml"⟩).2.filter
        (fun p => memB p (currentParams "f" ⟨some (.table [("f", .arr [])]), "rest"⟩)) ∧
    true =
      (!(addedParams [Line.wouldAdd "f" "b/f", Line.wouldAdd "f" "a/f",
          Line.addSummary "p" "f" ["b/f", "a/f"]]).isEmpty
        || !(removedParams [Line.wouldAdd "f" "b/f", Line.wouldAdd "f" "a/f",
          Line.addSummary "p" "f" ["b/f", "a/f"]]).isEmpty) :=
  c2_report_lines true false true "f" ["b", "a"] [] []
    ⟨"p", [⟨"b", false⟩, ⟨"a", false⟩], [], "p/Cargo.toml"⟩
    ⟨some (.table [("f", .arr [])]), "rest"⟩
    ⟨⟨some (.table [("f", .arr [])]), "rest"⟩,
      [Line.wouldAdd "f" "b/f", Line.wouldAdd "f" "a/f",
       Line.addSummary "p" "f" ["b/f", "a/f"]], [], true⟩
    rfl rfl

/-- C4: for every in-scope dependency of an in-scope package, the plan adds
the forwarding spec matching the dependency's optionality and removes the
opposite shape. -/
theorem c4_forward_specs (feature : String) (scope extras refs : List String)
    (pkg : Package) (d : Dependency)
    (hd : d ∈ pkg.dependencies) (hs : memB d.name scope = true) :
    (d.optional = true →
      fwdOpt d.name feature ∈ (planParams feature scope extras refs pkg).1 ∧
      fwd d.name feature ∈ (planParams feature scope extras refs pkg).2) ∧
    (d.optional = false →
      fwd d.name feature ∈ (planParams feature scope extras refs pkg).1 ∧
      fwdOpt d.name feature ∈ (planParams feature scope extras refs pkg).2) := by
  constructor <;> intro ho <;> constructor
  · show fwdOpt d.name feature ∈ (planDeps feature scope pkg.dependencies).1 ++ _
    exact List.mem_append_left _
      ((planDeps_fst_mem feature scope pkg.dependencies _).mpr ⟨d, hd, hs, by simp [ho]⟩)
  · rw [planParams_snd]
    exact (planDeps_snd_mem feature scope pkg.dependencies _).mpr ⟨d, hd, hs, by simp [ho]⟩
  · show fwd d.name feature ∈ (planDeps feature scope pkg.dependencies).1 ++ _
    exact List.mem_append_left _
      ((planDeps_fst_mem feature scope pkg.dependencies _).mpr ⟨d, hd, hs, by simp [ho]⟩)
  · rw [planParams_snd]
    exact (planDeps_snd_mem feature scope pkg.dependencies _).mpr ⟨d, hd, hs, by simp [ho]⟩

/-- C4 witness at a concrete optional and non-optional dependency. -/
theorem c4_forward_specs_witness :
    ((⟨"a", true⟩ : Dependency).optional = true →
      fwdOpt "a" "f" ∈ (planParams "f" ["a"] [] [] ⟨"p", [⟨"a", true⟩], [], "m"⟩).1 ∧
      fwd "a" "f" ∈ (planParams "f" ["a"] [] [] ⟨"p", [⟨"a", true⟩], [], "m"⟩).2) ∧
    ((⟨"a", true⟩ : Dependency).optional = false →
      fwd "a" "f" ∈ (planParams "f" ["a"] [] [] ⟨"p", [⟨"a", true⟩], [], "m"⟩).1 ∧
      fwdOpt "a" "f" ∈ (planParams "f" ["a"] [] [] ⟨"p", [⟨"a", true⟩], [], "m"⟩).2) :=
  c4_forward_specs "f" ["a"] [] [] ⟨"p", [⟨"a", true⟩], [], "m"⟩ ⟨"a", true⟩
    (by decide) (by decide)

/-- C10: in apply mode a successful patch step prints `break` to standard
output exactly when the package is named `cyw43-pio`, and it does so before
the single manifest write-back; no other package name prints anything. -/
theorem c10_break_println (sortFlag : Bool) (feature : String)
    (scope extras refs : List String) (pkg : Package) (doc : Doc) (res : VisitResult)
    (h : visit_aspect_feature false false sortFlag feature scope extras refs pkg doc = .ok res) :
    res.events = (if pkg.name = "cyw43-pio" then [Event.stdout "break"] else [])
      ++ [Event.write pkg.manifest_path res.doc] :=
  (visit_apply_shape h).2.2.2.2

/-- C10 witness at a concrete package named `cyw43-pio`. -/
theorem c10_break_println_witness :
    ([Event.stdout "break",
      Event.write "c/Cargo.toml" (⟨some (.table [("f", .arr [])]), "r"⟩ : Doc)] : List Event) =
      (if ("cyw43-pio" : String) = "cyw43-pio" then [Event.stdout "break"] else [])
        ++ [Event.write "c/Cargo.toml" (⟨some (.table [("f", .arr [])]), "r"⟩ : Doc)] :=
  c10_break_println true "f" [] [] [] ⟨"cyw43-pio", [], [], "c/Cargo.toml"⟩
    ⟨some (.table [("f", .arr [])]), "r"⟩
    ⟨⟨some (.table [("f", .arr [])]), "r"⟩, [],
      [Event.stdout "break",
       Event.write "c/Cargo.toml" ⟨some (.table [("f", .arr [])]), "r"⟩], false⟩
    rfl

/-- C8: an extra parameter or referenced leaf feature is included in the plan
exactly when it is not a `dep:<name>` token naming a missing dependency;
`dep:<name>` tokens require a dependency named `<name>`, all other tokens are
always included, and the add-set is the dependency specs followed by the
included tokens. -/
theorem c8_dep_token_filter (feature : String) (scope extras refs : List String)
    (pkg : Package) (param : String)
    (hparam : param ∈ extras ++ refs) :
    ((param ∈ planExtras pkg extras refs) ↔
      (∀ pre suf, splitOnce param ':' = some (pre, suf) → pre = "dep" →
        ∃ d ∈ pkg.dependencies, d.name = suf)) ∧
    (planParams feature scope extras refs pkg).1 =
      (planDeps feature scope pkg.dependencies).1 ++ planExtras pkg extras refs := by
  refine ⟨?_, rfl⟩
  rw [planExtras, List.mem_filter]
  constructor
  · rintro ⟨-, hinc⟩ pre suf hsplit hdep
    rw [shouldInclude, hsplit] at hinc
    subst hdep
    simp at hinc
    exact hinc
  · intro hcond
    refine ⟨hparam, ?_⟩
    rw [shouldInclude]
    cases hsplit : splitOnce param ':' with
    | none => rfl
    | some q =>
      show (if q.1 = "dep" then pkg.dependencies.any fun d => decide (d.name = q.2) else true) = true
      by_cases hq : q.1 = "dep"
      · rw [if_pos hq]
        simp only [List.any_eq_true, decide_eq_true_eq]
        exact hcond q.1 q.2 (by rw [hsplit]) hq
      · rw [if_neg hq]

/-- C8 witness: `dep:a` is included for a package with dependency `a`. -/
theorem c8_dep_token_filter_witness :
    ("dep:a" ∈ ["dep:a"] ++ ([] : List String) ∧
      (("dep:a" ∈ planExtras ⟨"p", [⟨"a", false⟩], [], "m"⟩ ["dep:a"] []) ↔
        (∀ pre suf, splitOnce "dep:a" ':' = some (pre, suf) → pre = "dep" →
          ∃ d ∈ (⟨"p", [⟨"a", false⟩], [], "m"⟩ : Package).dependencies, d.name = suf)) ∧
      (planParams "f" [] ["dep:a"] [] ⟨"p", [⟨"a", false⟩], [], "m"⟩).1 =
        (planDeps "f" [] (⟨"p", [⟨"a", false⟩], [], "m"⟩ : Package).dependencies).1
          ++ planExtras ⟨"p", [⟨"a", false⟩], [], "m"⟩ ["dep:a"] []) :=
  ⟨by decide,
    c8_dep_token_filter "f" [] ["dep:a"] [] ⟨"p", [⟨"a", false⟩], [], "m"⟩ "dep:a" (by decide)⟩

/-- C9 witness: an optional in-scope dependency with a stale non-optional
entry; the apply step fixes the entry and the second run reports no changes. -/
theorem c9_diff_idempotent_witness :
    visit_aspect_feature true false true "f" ["a"] [] []
        ⟨"p", [⟨"a", true⟩], [], "p/Cargo.toml"⟩
        (⟨some (.table [("f", .arr ["a?/f"])]), "rest"⟩ : Doc) =
      .ok ⟨⟨some (.table [("f", .arr ["a?/f"])]), "rest"⟩, [], [], false⟩ :=
  c9_diff_idempotent true "f" ["a"] [] [] ⟨"p", [⟨"a", true⟩], [], "p/Cargo.toml"⟩
    ⟨some (.table [("f", .arr ["a/f"])]), "rest"⟩
    ⟨⟨some (.table [("f", .arr ["a?/f"])]), "rest"⟩, [],
      [Event.write "p/Cargo.toml" ⟨some (.table [("f", .arr ["a?/f"])]), "rest"⟩], false⟩
    (by decide) (by decide) (by decide) (by decide) rfl

/-- C9 counterexample: with a dependency name listed twice (as cargo metadata
does for multiple dependency kinds), one apply run removes an unrelated entry
and the second run still reports a pending addition, so the applied state is
not a fixed point. -/
theorem c9_counterexample :
    visit_aspect_feature false false true "f" ["a", "b"] [] []
        ⟨"p", [⟨"a", true⟩, ⟨"a", true⟩, ⟨"b", false⟩], [], "p/Cargo.toml"⟩
        ⟨some (.table [("f", .arr ["a/f", "b/f"])]), "rest"⟩ =
      .ok ⟨⟨some (.table [("f", .arr ["a?/f", "a?/f"])]), "rest"⟩, [],
        [Event.write "p/Cargo.toml" ⟨some (.table [("f", .arr ["a?/f", "a?/f"])]), "rest"⟩],
        false⟩ ∧
    visit_aspect_feature true false true "f" ["a", "b"] [] []
        ⟨"p", [⟨"a", true⟩, ⟨"a", true⟩, ⟨"b", false⟩], [], "p/Cargo.toml"⟩
        ⟨some (.table [("f", .arr ["a?/f", "a?/f"])]), "rest"⟩ =
      .ok ⟨⟨some (.table [("f", .arr ["a?/f", "a?/f"])]), "rest"⟩,
        [Line.wouldAdd "f" "b/f", Line.addSummary "p" "f" ["b/f"]], [], true⟩ :=
  ⟨by rfl, by rfl⟩

/-! Scope resolution lemmas. -/

theorem mem_insertName (n m : String) (scope : List String) :
    n ∈ insertName scope m ↔ n ∈ scope ∨ n = m := by
  by_cases h : memB m scope = true
  · simp only [insertName, h, if_true]
    constructor
    · exact Or.inl
    · rintro (hn | rfl)
      · exact hn
      · exact (memB_iff n scope).mp h
  · have h' : memB m scope = false := by
      cases hv : memB m scope
      · rfl
      · exact absurd hv h
    simp only [insertName, h', Bool.false_eq_true, if_false, List.mem_append,
      List.mem_singleton]

theorem scopeFold_append (ctx : Context) (init : List String) (l1 l2 : List Package) :
    scopeFold ctx init (l1 ++ l2) = scopeFold ctx (scopeFold ctx init l1) l2 :=
  List.foldl_append _ _ _ _

theorem mem_scopeStep_of_mem {ctx : Context} {n : String} {scope : List String}
    {pkg : Package} (h : n ∈ scope) : n ∈ scopeStep ctx scope pkg := by
  unfold scopeStep
  by_cases hc : isInScope ctx scope pkg = true
  · rw [if_pos hc, mem_insertName]
    exact Or.inl h
  · rw [if_neg hc]
    exact h

theorem mem_scopeFold_of_mem (ctx : Context) {n : String} :
    ∀ (l : List Package) (init : List String), n ∈ init → n ∈ scopeFold ctx init l := by
  intro l
  induction l with
  | nil => intro init h; exact h
  | cons q rest ih =>
    intro init h
    exact ih (scopeStep ctx init q) (mem_scopeStep_of_mem h)

theorem scopeFold_mem_source (ctx : Context) {n : String} :
    ∀ (l : List Package) (init : List String),
      n ∈ scopeFold ctx init l → n ∈ init ∨ n ∈ l.map Package.name := by
  intro l
  induction l with
  | nil => intro init h; exact Or.inl h
  | cons q rest ih =>
    intro init h
    rcases ih (scopeStep ctx init q) h with hstep | hrest
    · unfold scopeStep at hstep
      by_cases hc : isInScope ctx init q = true
      · rw [if_pos hc, mem_insertName] at hstep
        rcases hstep with hi | rfl
        · exact Or.inl hi
        · exact Or.inr (by simp)
      · rw [if_neg hc] at hstep
        exact Or.inl hstep
    · exact Or.inr (List.mem_cons_of_mem _ (by simpa using hrest))

theorem scopeFold_mem_frozen (ctx : Context) {n : String} :
    ∀ (l : List Package) (init : List String), n ∉ l.map Package.name →
      (n ∈ scopeFold ctx init l ↔ n ∈ init) := by
  intro l
  induction l with
  | nil => intro init _; exact Iff.rfl
  | cons q rest ih =>
    intro init hn
    have hq : n ≠ q.name := by
      intro h
      exact hn (by simp [h])
    have hrest : n ∉ rest.map Package.name := by
      intro h
      exact hn (List.mem_cons_of_mem _ h)
    rw [show scopeFold ctx init (q :: rest) = scopeFold ctx (scopeStep ctx init q) rest from rfl,
      ih (scopeStep ctx init q) hrest]
    unfold scopeStep
    by_cases hc : isInScope ctx init q = true
    · rw [if_pos hc, mem_insertName]
      constructor
      · rintro (h | h)
        · exact h
        · exact absurd h hq
      · exact Or.inl
    · rw [if_neg hc]

theorem isInScope_iff (ctx : Context) (scope : List String) (pkg : Package) :
    isInScope ctx scope pkg = true ↔
      (∃ fp ∈ pkg.features, fp.1 ∈ ctx.unqualified_leaf_features ∨
        (pkg.name, fp.1) ∈ ctx.qualified_leaf_features) ∨
      (∃ d ∈ pkg.dependencies, d.name ∈ scope) := by
  simp only [isInScope, Bool.or_eq_true, List.any_eq_true, List.mem_map,
    leafFeatureMatches, memB_iff]
  constructor
  · rintro (⟨f, ⟨fp, hfp, rfl⟩, hmatch⟩ | ⟨d, hd, hs⟩)
    · exact Or.inl ⟨fp, hfp, by simpa using hmatch⟩
    · exact Or.inr ⟨d, hd, hs⟩
  · rintro (⟨fp, hfp, hmatch⟩ | ⟨d, hd, hs⟩)
    · exact Or.inl ⟨fp.1, ⟨fp, hfp, rfl⟩, by simpa using hmatch⟩
    · exact Or.inr ⟨d, hd, hs⟩

/-- C3: during the traversal the scope set only grows, and a package's name
is in the final scope set exactly when, at its own (unique) visit, it
declares a matching leaf feature or has a dependency already in scope. -/
theorem c3_scope_resolution (ctx : Context) (pkgs l₁ : List Package) (p : Package)
    (l₂ : List Package) (hsplit : pkgs = l₁ ++ p :: l₂)
    (hnodup : (pkgs.map Package.name).Nodup) :
    (∀ n, n ∈ scopeFold ctx [] l₁ → n ∈ scopeFold ctx [] pkgs) ∧
    (p.name ∈ scopeFold ctx [] pkgs ↔
      (∃ fp ∈ p.features, fp.1 ∈ ctx.unqualified_leaf_features ∨
        (p.name, fp.1) ∈ ctx.qualified_leaf_features) ∨
      (∃ d ∈ p.dependencies, d.name ∈ scopeFold ctx [] l₁)) := by
  subst hsplit
  have hmapsplit : (l₁ ++ p :: l₂).map Package.name
      = l₁.map Package.name ++ p.name :: l₂.map Package.name := by simp
  rw [hmapsplit] at hnodup
  have hnl₁ : p.name ∉ l₁.map Package.name := by
    intro h
    have := (List.nodup_append.mp hnodup).2.2
    exact this h (List.mem_cons_self _ _)
  have hnl₂ : p.name ∉ l₂.map Package.name := by
    have := (List.nodup_append.mp hnodup).2.1
    exact (List.nodup_cons.mp this).1
  constructor
  · intro n hn
    rw [scopeFold_append]
    exact mem_scopeFold_of_mem ctx (p :: l₂) _ hn
  · rw [scopeFold_append]
    rw [show scopeFold ctx (scopeFold ctx [] l₁) (p :: l₂)
        = scopeFold ctx (scopeStep ctx (scopeFold ctx [] l₁) p) l₂ from rfl]
    rw [scopeFold_mem_frozen ctx l₂ _ hnl₂]
    have hp₁ : p.name ∉ scopeFold ctx [] l₁ := by
      intro h
      rcases scopeFold_mem_source ctx l₁ [] h with h0 | h0
      · simp at h0
      · exact hnl₁ h0
    unfold scopeStep
    by_cases hc : isInScope ctx (scopeFold ctx [] l₁) p = true
    · rw [if_pos hc, mem_insertName]
      constructor
      · intro _
        exact (isInScope_iff ctx _ p).mp hc
      · intro _
        exact Or.inr rfl
    · rw [if_neg hc]
      constructor
      · intro h
        exact absurd h hp₁
      · intro h
        exact absurd ((isInScope_iff ctx _ p).mpr h) hc

/-- C3 witness on the spec's example workspace. -/
theorem c3_scope_resolution_witness :
    ((∀ n, n ∈ scopeFold ⟨"enable-tracing", [], false, false, true, [],
        [("logging", "enable-tracing")]⟩ []
        [⟨"logging", [], [("enable-tracing", [])], "l"⟩] →
      n ∈ scopeFold ⟨"enable-tracing", [], false, false, true, [],
        [("logging", "enable-tracing")]⟩ []
        [⟨"logging", [], [("enable-tracing", [])], "l"⟩,
         ⟨"mid", [⟨"logging", false⟩], [], "m"⟩,
         ⟨"top", [⟨"mid", false⟩], [], "t"⟩]) ∧
    (("mid" : String) ∈ scopeFold ⟨"enable-tracing", [], false, false, true, [],
        [("logging", "enable-tracing")]⟩ []
        [⟨"logging", [], [("enable-tracing", [])], "l"⟩,
         ⟨"mid", [⟨"logging", false⟩], [], "m"⟩,
         ⟨"top", [⟨"mid", false⟩], [], "t"⟩] ↔
      (∃ fp ∈ (⟨"mid", [⟨"logging", false⟩], [], "m"⟩ : Package).features,
        fp.1 ∈ ([] : List String) ∨
        (("mid" : String), fp.1) ∈ [(("logging" : String), ("enable-tracing" : String))]) ∨
      (∃ d ∈ (⟨"mid", [⟨"logging", false⟩], [], "m"⟩ : Package).dependencies,
        d.name ∈ scopeFold ⟨"enable-tracing", [], false, false, true, [],
          [("logging", "enable-tracing")]⟩ []
          [⟨"logging", [], [("enable-tracing", [])], "l"⟩]))) :=
  c3_scope_resolution ⟨"enable-tracing", [], false, false, true, [],
      [("logging", "enable-tracing")]⟩
    [⟨"logging", [], [("enable-tracing", [])], "l"⟩,
     ⟨"mid", [⟨"logging", false⟩], [], "m"⟩,
     ⟨"top", [⟨"mid", false⟩], [], "t"⟩]
    [⟨"logging", [], [("enable-tracing", [])], "l"⟩]
    ⟨"mid", [⟨"logging", false⟩], [], "m"⟩
    [⟨"top", [⟨"mid", false⟩], [], "t"⟩]
    rfl (by decide)


/-! Run-loop lemmas for the verify outcome. -/

theorem isEmpty_append {α : Type} (a b : List α) :
    (a ++ b).isEmpty = (a.isEmpty && b.isEmpty) := by
  cases a <;> cases b <;> simp

theorem mkDryLines_isEmpty (pkgName feature : String) (toAdd toRemove : List String) :
    (mkDryLines pkgName feature toAdd toRemove).isEmpty =
      (toAdd.isEmpty && toRemove.isEmpty) := by
  cases toAdd <;> cases toRemove <;> simp [mkDryLines]

/-- In dry-run/verify mode with a readable manifest, a package visit cannot
fail; it applies the scope step, leaves documents and events untouched, and
appends report lines matching the change flag. -/
theorem visit_package_dry (ctx : Context) (pkg : Package) (st : RunState)
    (hmode : (ctx.dry_run || ctx.verify) = true)
    (hdoc : (lookupDoc st.docs pkg.manifest_path).isSome = true) :
    ∃ st', visit_package ctx pkg st = (.ok (), st') ∧
      st'.docs = st.docs ∧ st'.events = st.events ∧
      st'.scope = scopeStep ctx st.scope pkg ∧
      st'.visited = st.visited ++ [pkg.name] ∧
      ∃ suffix, st'.lines = st.lines ++ suffix ∧
        st'.has_changes = (st.has_changes || !suffix.isEmpty) := by
  unfold visit_package
  by_cases hc : isInScope ctx st.scope pkg = true
  · rw [if_pos hc]
    cases hdl : lookupDoc st.docs pkg.manifest_path with
    | none => rw [hdl] at hdoc; simp at hdoc
    | some doc =>
      simp only [hdl, visit_dry_shape hmode, hmode, if_true]
      refine ⟨_, rfl, rfl, by simp, ?_, rfl, _, rfl, ?_⟩
      · unfold scopeStep
        rw [if_pos hc]
      · rw [mkDryLines_isEmpty]
        cases ((planParams ctx.feature_name (insertName st.scope pkg.name)
            ctx.extra_feature_params (referencedLeafFeatures ctx pkg) pkg).1.filter
            (fun p => !(memB p (currentParams ctx.feature_name doc)))).isEmpty <;>
          cases ((planParams ctx.feature_name (insertName st.scope pkg.name)
            ctx.extra_feature_params (referencedLeafFeatures ctx pkg) pkg).2.filter
            (fun p => memB p (currentParams ctx.feature_name doc))).isEmpty <;>
          simp
  · rw [if_neg hc]
    refine ⟨_, rfl, rfl, rfl, ?_, rfl, [], by simp, by simp⟩
    unfold scopeStep
    rw [if_neg hc]

theorem run_loop_dry (ctx : Context) (hmode : (ctx.dry_run || ctx.verify) = true) :
    ∀ (l : List Package) (st : RunState),
      (∀ p ∈ l, (lookupDoc st.docs p.manifest_path).isSome = true) →
      ∃ st', run_loop ctx l st = (.ok (), st') ∧
        st'.docs = st.docs ∧ st'.events = st.events ∧
        st'.visited = st.visited ++ l.map Package.name ∧
        ∃ suffix, st'.lines = st.lines ++ suffix ∧
          st'.has_changes = (st.has_changes || !suffix.isEmpty) := by
  intro l
  induction l with
  | nil =>
    intro st _
    exact ⟨st, rfl, rfl, rfl, by simp, [], by simp, by simp⟩
  | cons q rest ih =>
    intro st hdocs
    obtain ⟨st1, hv, hd1, he1, hsc1, hvis1, s1, hl1, hc1⟩ :=
      visit_package_dry ctx q st hmode (hdocs q (List.mem_cons_self q rest))
    obtain ⟨st2, hr, hd2, he2, hvis2, s2, hl2, hc2⟩ := ih st1 (by
      intro p hp
      rw [hd1]
      exact hdocs p (List.mem_cons_of_mem q hp))
    refine ⟨st2, ?_, by rw [hd2, hd1], by rw [he2, he1], ?_, s1 ++ s2, ?_, ?_⟩
    · unfold run_loop
      rw [hv]
      exact hr
    · rw [hvis2, hvis1]
      simp
    · rw [hl2, hl1, List.append_assoc]
    · rw [hc2, hc1, isEmpty_append]
      cases s1.isEmpty <;> cases s2.isEmpty <;> cases st.has_changes <;> simp

/-- C5: in verify mode, given readable manifests and a successful ordering,
the run visits every package in order, never stops early on a detected
change, and its outcome is the verify failure exactly when some visit
reported a pending change (equivalently, when any report line was emitted). -/
theorem c5_verify_outcome (ctx : Context) (pkgs sorted : List Package)
    (docs : List (String × Doc))
    (hverify : ctx.verify = true)
    (hsort : topo_sort_packages pkgs = some sorted)
    (hdocs : ∀ p ∈ sorted, (lookupDoc docs p.manifest_path).isSome = true) :
    (run_feature_aspect ctx pkgs docs).2.visited = sorted.map Package.name ∧
    ((run_feature_aspect ctx pkgs docs).1 = .error verify_err ↔
      (run_feature_aspect ctx pkgs docs).2.has_changes = true) ∧
    ((run_feature_aspect ctx pkgs docs).2.has_changes = true ↔
      (run_feature_aspect ctx pkgs docs).2.lines ≠ []) := by
  have hmode : (ctx.dry_run || ctx.verify) = true := by rw [hverify]; simp
  obtain ⟨st', hrun, hd, he, hvis, suffix, hl, hc⟩ :=
    run_loop_dry ctx hmode sorted (initState docs) hdocs
  simp only [initState] at hvis hl hc
  rw [List.nil_append] at hvis hl
  rw [Bool.false_or] at hc
  have hresult : run_feature_aspect ctx pkgs docs =
      (if st'.has_changes = true then (.error verify_err, st') else (.ok (), st')) := by
    unfold run_feature_aspect
    simp only [hsort, hrun, hverify, Bool.true_and]
  cases hchg : st'.has_changes with
  | false =>
    rw [hchg] at hresult
    simp only [Bool.false_eq_true, if_false] at hresult
    rw [hresult]
    have hsuf : suffix = [] := by
      rw [hchg] at hc
      cases suffix
      · rfl
      · simp at hc
    refine ⟨hvis, ?_, ?_⟩
    · simp [hchg]
    · simp [hchg, hl, hsuf]
  | true =>
    rw [hchg] at hresult
    simp only [if_true] at hresult
    rw [hresult]
    have hsuf : suffix ≠ [] := by
      rw [hchg] at hc
      intro hnil
      rw [hnil] at hc
      simp at hc
    refine ⟨hvis, ?_, ?_⟩
    · simp [hchg]
    · simp only [hchg, hl, true_iff]
      exact hsuf

/-- C5 witness: a one-package verify run over a workspace with a pending
extra parameter. -/
theorem c5_verify_outcome_witness :
    (run_feature_aspect ⟨"f", ["x"], false, true, true, ["f"], []⟩
      [⟨"logging", [], [("f", [])], "l"⟩]
      [("l", ⟨some (.table [("f", .arr [])]), "r"⟩)]).2.visited =
        ([⟨"logging", [], [("f", [])], "l"⟩] : List Package).map Package.name ∧
    ((run_feature_aspect ⟨"f", ["x"], false, true, true, ["f"], []⟩
      [⟨"logging", [], [("f", [])], "l"⟩]
      [("l", ⟨some (.table [("f", .arr [])]), "r"⟩)]).1 = .error verify_err ↔
      (run_feature_aspect ⟨"f", ["x"], false, true, true, ["f"], []⟩
        [⟨"logging", [], [("f", [])], "l"⟩]
        [("l", ⟨some (.table [("f", .arr [])]), "r"⟩)]).2.has_changes = true) ∧
    ((run_feature_aspect ⟨"f", ["x"], false, true, true, ["f"], []⟩
      [⟨"logging", [], [("f", [])], "l"⟩]
      [("l", ⟨some (.table [("f", .arr [])]), "r"⟩)]).2.has_changes = true ↔
      (run_feature_aspect ⟨"f", ["x"], false, true, true, ["f"], []⟩
        [⟨"logging", [], [("f", [])], "l"⟩]
        [("l", ⟨some (.table [("f", .arr [])]), "r"⟩)]).2.lines ≠ []) :=
  c5_verify_outcome ⟨"f", ["x"], false, true, true, ["f"], []⟩
    [⟨"logging", [], [("f", [])], "l"⟩] [⟨"logging", [], [("f", [])], "l"⟩]
    [("l", ⟨some (.table [("f", .arr [])]), "r"⟩)]
    rfl rfl (by decide)

/-! Lemmas about the modelled topological orderer. -/

theorem ready_spec (rem : List Package) (p : Package) :
    ready rem p = true ↔ ∀ d ∈ p.dependencies, ∀ q ∈ rem, q.name ≠ d.name := by
  simp [ready, List.all_eq_true]

theorem ready_false (rem : List Package) (p : Package) (h : ¬ ready rem p = true) :
    ∃ d ∈ p.dependencies, ∃ q ∈ rem, q.name = d.name := by
  rw [ready_spec] at h
  push_neg at h
  exact h

theorem find?_of_exists {α : Type} (p : α → Bool) :
    ∀ (l : List α), (∃ x ∈ l, p x = true) → ∃ y, l.find? p = some y := by
  intro l
  induction l with
  | nil => rintro ⟨x, hx, -⟩; simp at hx
  | cons z zs ih =>
    rintro ⟨x, hx, hpx⟩
    by_cases hz : p z = true
    · exact ⟨z, by simp [List.find?, hz]⟩
    · rcases List.mem_cons.mp hx with rfl | hx'
      · exact absurd hpx hz
      · obtain ⟨y, hy⟩ := ih ⟨x, hx', hpx⟩
        refine ⟨y, ?_⟩
        have hzf : p z = false := by
          cases hv : p z with
          | false => rfl
          | true => exact absurd hv hz
        rw [List.find?, hzf]
        exact hy

theorem kahnAux_perm :
    ∀ (fuel : Nat) (rem out : List Package), kahnAux fuel rem = some out →
      List.Perm rem out := by
  intro fuel
  induction fuel with
  | zero =>
    intro rem out h
    cases rem with
    | nil =>
      simp only [kahnAux, Option.some.injEq] at h
      rw [← h]
    | cons r rs => simp [kahnAux] at h
  | succ n ih =>
    intro rem out h
    cases rem with
    | nil =>
      simp only [kahnAux, Option.some.injEq] at h
      rw [← h]
    | cons r rs =>
      rw [kahnAux] at h
      cases hf : (r :: rs).find? (ready (r :: rs)) with
      | none => rw [hf] at h; simp at h
      | some p =>
        rw [hf] at h
        obtain ⟨out', hout', rfl⟩ := Option.map_eq_some'.mp h
        have hp : p ∈ r :: rs := List.mem_of_find?_eq_some hf
        exact (List.perm_cons_erase hp).trans (List.Perm.cons p (ih _ _ hout'))

theorem kahnAux_valid :
    ∀ (fuel : Nat) (rem out : List Package), kahnAux fuel rem = some out →
      ∀ (l₁ : List Package) (x : Package) (l₂ : List Package), out = l₁ ++ x :: l₂ →
        ∀ d ∈ x.dependencies, ∀ y ∈ x :: l₂, y.name ≠ d.name := by
  intro fuel
  induction fuel with
  | zero =>
    intro rem out h l₁ x l₂ hsplit
    cases rem with
    | nil =>
      simp only [kahnAux, Option.some.injEq] at h
      rw [← h] at hsplit
      exact absurd hsplit.symm (List.append_ne_nil_of_right_ne_nil _ (by simp))
    | cons r rs => simp [kahnAux] at h
  | succ n ih =>
    intro rem out h l₁ x l₂ hsplit
    cases rem with
    | nil =>
      simp only [kahnAux, Option.some.injEq] at h
      rw [← h] at hsplit
      exact absurd hsplit.symm (List.append_ne_nil_of_right_ne_nil _ (by simp))
    | cons r rs =>
      rw [kahnAux] at h
      cases hf : (r :: rs).find? (ready (r :: rs)) with
      | none => rw [hf] at h; simp at h
      | some p =>
        rw [hf] at h
        obtain ⟨out', hout', houtp⟩ := Option.map_eq_some'.mp h
        cases l₁ with
        | nil =>
          simp only [List.nil_append] at hsplit
          rw [← houtp] at hsplit
          have hx : p = x := (List.cons.injEq _ _ _ _ ▸ hsplit).1
          have hl₂ : out' = l₂ := (List.cons.injEq _ _ _ _ ▸ hsplit).2
          intro d hd y hy
          have hready := List.find?_some hf
          rw [← hx] at hd
          have hq : y ∈ r :: rs := by
            rcases List.mem_cons.mp hy with rfl | hy'
            · rw [← hx]
              exact List.mem_of_find?_eq_some hf
            · have : y ∈ out' := hl₂ ▸ hy'
              have : y ∈ (r :: rs).erase p := ((kahnAux_perm n _ _ hout').mem_iff).mpr this
              exact List.mem_of_mem_erase this
          exact (ready_spec _ _).mp hready d hd y hq
        | cons z l₁' =>
          rw [← houtp] at hsplit
          have hz : p = z := (List.cons.injEq _ _ _ _ ▸ hsplit).1
          have hrest : out' = l₁' ++ x :: l₂ := (List.cons.injEq _ _ _ _ ▸ hsplit).2
          exact ih _ _ hout' l₁' x l₂ hrest

theorem exists_ready (pkgs : List Package)
    (hacyc : ∀ p, ¬ Relation.TransGen (depRel pkgs) p p) :
    ∀ (rem : List Package), rem ≠ [] → (∀ q ∈ rem, q ∈ pkgs) →
      ∃ p ∈ rem, ready rem p = true := by
  intro rem hne hsub
  by_contra hno
  push_neg at hno
  let r' : {x // x ∈ rem} → {x // x ∈ rem} → Prop := fun a b => depRel pkgs b.1 a.1
  haveI : IsTrans {x // x ∈ rem} (Relation.TransGen r') :=
    ⟨fun _ _ _ hab hbc => hab.trans hbc⟩
  haveI : IsIrrefl {x // x ∈ rem} (Relation.TransGen r') := by
    refine ⟨fun a ha => ?_⟩
    have hlift : Relation.TransGen (Function.swap (depRel pkgs)) a.1 a.1 := by
      refine Relation.TransGen.lift Subtype.val ?_ ha
      intro u v huv
      exact huv
    exact hacyc a.1 (Relation.transGen_swap.mp hlift)
  have hwf := Finite.wellFounded_of_trans_of_irrefl (Relation.TransGen r')
  have hnonempty : ∃ x : {x // x ∈ rem}, True := by
    cases rem with
    | nil => exact absurd rfl hne
    | cons q qs => exact ⟨⟨q, List.mem_cons_self q qs⟩, trivial⟩
  obtain ⟨x0, -⟩ := hnonempty
  obtain ⟨m, -, hmin⟩ := hwf.has_min Set.univ ⟨x0, trivial⟩
  obtain ⟨d, hd, q', hq', hname⟩ := ready_false rem m.1 (by
    intro h
    exact absurd h (by simpa using hno m.1 m.2))
  have hstep : depRel pkgs m.1 q' := by
    refine ⟨hsub m.1 m.2, hsub q' hq', ?_⟩
    exact List.mem_map.mpr ⟨d, hd, hname ▸ rfl⟩
  exact hmin ⟨q', hq'⟩ trivial (Relation.TransGen.single hstep)

theorem kahnAux_total (pkgs : List Package)
    (hacyc : ∀ p, ¬ Relation.TransGen (depRel pkgs) p p) :
    ∀ (fuel : Nat) (rem : List Package), rem.length ≤ fuel →
      (∀ q ∈ rem, q ∈ pkgs) → ∃ out, kahnAux fuel rem = some out := by
  intro fuel
  induction fuel with
  | zero =>
    intro rem hlen _
    have : rem = [] := List.length_eq_zero.mp (Nat.le_zero.mp hlen)
    subst this
    exact ⟨[], rfl⟩
  | succ n ih =>
    intro rem hlen hsub
    cases rem with
    | nil => exact ⟨[], rfl⟩
    | cons r rs =>
      obtain ⟨p, hp, hready⟩ := exists_ready pkgs hacyc (r :: rs) (by simp) hsub
      obtain ⟨y, hy⟩ := find?_of_exists _ (r :: rs) ⟨p, hp, hready⟩
      have hymem : y ∈ r :: rs := List.mem_of_find?_eq_some hy
      have herase_len : ((r :: rs).erase y).length ≤ n := by
        rw [List.length_erase_of_mem hymem]
        simpa using Nat.le_of_succ_le_succ (by simpa using hlen)
      obtain ⟨out', hout'⟩ := ih ((r :: rs).erase y) herase_len
        (fun q hq => hsub q (List.erase_subset _ _ hq))
      refine ⟨y :: out', ?_⟩
      simp only [kahnAux, hy, hout', Option.map_some']

theorem position?_append_of_pred_mem {α : Type} (p : α → Bool) :
    ∀ (l1 l2 : List α), (∃ x ∈ l1, p x = true) →
      ∃ i, position? p (l1 ++ l2) = some i ∧ i < l1.length := by
  intro l1
  induction l1 with
  | nil => rintro l2 ⟨x, hx, -⟩; simp at hx
  | cons z zs ih =>
    rintro l2 ⟨x, hx, hpx⟩
    by_cases hz : p z = true
    · exact ⟨0, by simp [position?, hz], by simp⟩
    · have hzf : p z = false := by
        cases hv : p z with
        | false => rfl
        | true => exact absurd hv hz
      rcases List.mem_cons.mp hx with rfl | hx'
      · exact absurd hpx hz
      · obtain ⟨i, hi, hlt⟩ := ih l2 ⟨x, hx', hpx⟩
        refine ⟨i + 1, ?_, by simpa using Nat.succ_lt_succ hlt⟩
        show position? p (z :: (zs ++ l2)) = some (i + 1)
        simp only [position?, hzf, Bool.false_eq_true, if_false, hi]
        rfl

theorem position?_append_cons_self {α : Type} (p : α → Bool) (a : α) :
    ∀ (l1 l2 : List α), (∀ x ∈ l1, p x = false) → p a = true →
      position? p (l1 ++ a :: l2) = some l1.length := by
  intro l1
  induction l1 with
  | nil => intro l2 _ hpa; simp [position?, hpa]
  | cons z zs ih =>
    intro l2 hall hpa
    have hz := hall z (List.mem_cons_self z zs)
    show position? p (z :: (zs ++ a :: l2)) = some (zs.length + 1)
    simp only [position?, hz, Bool.false_eq_true, if_false,
      ih l2 (fun x hx => hall x (List.mem_cons_of_mem z hx)) hpa]
    rfl

/-- A successful ordering certifies acyclicity: every dependency of an
emitted package was emitted strictly earlier. -/
theorem topo_sort_acyclic (pkgs out : List Package)
    (hnodup : (pkgs.map Package.name).Nodup)
    (h : topo_sort_packages pkgs = some out) :
    ∀ p, ¬ Relation.TransGen (depRel pkgs) p p := by
  have hperm : List.Perm pkgs out := kahnAux_perm _ _ _ h
  have hvalid := kahnAux_valid _ _ _ h
  have hnodupOut : out.Nodup := by
    have hmap : (out.map Package.name).Nodup := ((hperm.map Package.name).nodup_iff).mp hnodup
    exact List.Nodup.of_map Package.name hmap
  have hdec : ∀ a b, depRel pkgs a b → ∀ ia ib,
      position? (fun x => decide (x = a)) out = some ia →
      position? (fun x => decide (x = b)) out = some ib → ib < ia := by
    rintro a b ⟨ha, hb, hnm⟩ ia ib hia hib
    have hao : a ∈ out := hperm.mem_iff.mp ha
    have hbo : b ∈ out := hperm.mem_iff.mp hb
    obtain ⟨l1, l2, hsplit⟩ := List.append_of_mem hao
    have hnal1 : a ∉ l1 := by
      rw [hsplit] at hnodupOut
      have hdisj := (List.nodup_append.mp hnodupOut).2.2
      intro hmem
      exact hdisj hmem (List.mem_cons_self a l2)
    obtain ⟨d, hd, hdb⟩ := List.mem_map.mp hnm
    have hbl1 : b ∈ l1 := by
      rw [hsplit] at hbo
      rcases List.mem_append.mp hbo with h1 | h2
      · exact h1
      · exact absurd hdb.symm (hvalid l1 a l2 hsplit d hd b h2)
    have hia' : ia = l1.length := by
      rw [hsplit] at hia
      rw [position?_append_cons_self _ a l1 l2 (fun x hx => by
        simp only [decide_eq_false_iff_not]
        intro hxa
        exact hnal1 (hxa ▸ hx)) (by simp)] at hia
      exact (Option.some.injEq _ _ ▸ hia).symm
    obtain ⟨i, hi, hlt⟩ := position?_append_of_pred_mem (fun x => decide (x = b)) l1 (a :: l2)
      ⟨b, hbl1, by simp⟩
    rw [hsplit, hi] at hib
    have : ib = i := (Option.some.injEq _ _ ▸ hib).symm
    rw [this, hia']
    exact hlt
  intro p hp
  have hpo : p ∈ out := hperm.mem_iff.mp (by
    cases hp with
    | single h1 => exact h1.1
    | tail h1 h2 => exact h2.2.1)
  obtain ⟨ip, hip⟩ := position?_isSome_of_mem (fun x => decide (x = p)) out hpo (by simp)
  have hchain : ∀ x y, Relation.TransGen (depRel pkgs) x y →
      ∀ ix iy, position? (fun q => decide (q = x)) out = some ix →
        position? (fun q => decide (q = y)) out = some iy → iy < ix := by
    intro x y hxy
    induction hxy with
    | single h1 =>
      intro ix iy hx hy
      exact hdec _ _ h1 ix iy hx hy
    | @tail b c h1 h2 ih =>
      intro ix iy hx hy
      have hbmem : b ∈ out := hperm.mem_iff.mp h2.1
      obtain ⟨ib, hibb⟩ := position?_isSome_of_mem (fun q => decide (q = b)) out hbmem (by simp)
      exact lt_trans (hdec _ _ h2 ib iy hibb hy) (ih ix ib hx hibb)
  exact absurd (hchain p p hp ip ip hip hip) (lt_irrefl ip)

/-- C6 (amended): on an acyclic dependency graph the orderer succeeds,
returning a permutation of the input in which every package appears after all
of its workspace-member dependencies; the selection rule (first ready package
in input order) makes the output deterministic, but packages with no
constraint between them do not always keep their input order (see the
counterexample). -/
theorem c6_topological_order (pkgs : List Package)
    (hacyc : ∀ p, ¬ Relation.TransGen (depRel pkgs) p p) :
    ∃ out, topo_sort_packages pkgs = some out ∧ List.Perm pkgs out ∧
      ∀ (l₁ : List Package) (x : Package) (l₂ : List Package), out = l₁ ++ x :: l₂ →
        ∀ d ∈ x.dependencies, ∀ y ∈ x :: l₂, y.name ≠ d.name := by
  obtain ⟨out, hout⟩ := kahnAux_total pkgs hacyc pkgs.length pkgs (Nat.le_refl _)
    (fun q hq => hq)
  exact ⟨out, hout, kahnAux_perm _ _ _ hout, kahnAux_valid _ _ _ hout⟩

/-- C6 witness: a two-package workspace where `pb` depends on `pa`. -/
theorem c6_topological_order_witness :
    ∃ out, topo_sort_packages
        [⟨"pa", [], [], "a"⟩, ⟨"pb", [⟨"pa", false⟩], [], "b"⟩] = some out ∧
      List.Perm [⟨"pa", [], [], "a"⟩, ⟨"pb", [⟨"pa", false⟩], [], "b"⟩] out ∧
      ∀ (l₁ : List Package) (x : Package) (l₂ : List Package), out = l₁ ++ x :: l₂ →
        ∀ d ∈ x.dependencies, ∀ y ∈ x :: l₂, y.name ≠ d.name := by
  refine c6_topological_order
    [⟨"pa", [], [], "a"⟩, ⟨"pb", [⟨"pa", false⟩], [], "b"⟩] ?_
  intro p hp
  have hstep : ∀ x y,
      depRel [⟨"pa", [], [], "a"⟩, ⟨"pb", [⟨"pa", false⟩], [], "b"⟩] x y →
        x = ⟨"pb", [⟨"pa", false⟩], [], "b"⟩ ∧ y = ⟨"pa", [], [], "a"⟩ := by
    rintro x y ⟨hx, hy, hn⟩
    simp only [List.mem_cons, List.not_mem_nil, or_false] at hx hy
    rcases hx with rfl | rfl <;> rcases hy with rfl | rfl <;> simp_all
  have hnoA : ∀ y, ¬ Relation.TransGen
      (depRel [⟨"pa", [], [], "a"⟩, ⟨"pb", [⟨"pa", false⟩], [], "b"⟩])
      ⟨"pa", [], [], "a"⟩ y := by
    intro y hy
    induction hy with
    | single h1 =>
      have := (hstep _ _ h1).1
      exact absurd this (by decide)
    | tail h1 h2 ih => exact ih
  cases hp with
  | single h1 =>
    have h := hstep _ _ h1
    have hba : (⟨"pb", [⟨"pa", false⟩], [], "b"⟩ : Package) = ⟨"pa", [], [], "a"⟩ :=
      h.1.symm.trans h.2
    exact absurd hba (by decide)
  | tail h1 h2 =>
    have h := hstep _ _ h2
    rw [h.2] at h1
    exact hnoA _ h1

/-- C6 counterexample: with input order `b, a, c` and the single edge
`b depends on c`, the orderer outputs `a, c, b`; `a` and `b` have no
dependency between them, yet their input order (`b` before `a`) is reversed. -/
theorem c6_counterexample :
    topo_sort_packages
        [⟨"b", [⟨"c", false⟩], [], "mb"⟩, ⟨"a", [], [], "ma"⟩, ⟨"c", [], [], "mc"⟩] =
      some [⟨"a", [], [], "ma"⟩, ⟨"c", [], [], "mc"⟩, ⟨"b", [⟨"c", false⟩], [], "mb"⟩] ∧
    ("a" ∉ ([⟨"c", false⟩] : List Dependency).map Dependency.name ∧
     "b" ∉ ([] : List Dependency).map Dependency.name) ∧
    (position? (fun x => decide (Package.name x = "b"))
        [⟨"b", [⟨"c", false⟩], [], "mb"⟩, ⟨"a", [], [], "ma"⟩, ⟨"c", [], [], "mc"⟩] = some 0 ∧
     position? (fun x => decide (Package.name x = "a"))
        [⟨"b", [⟨"c", false⟩], [], "mb"⟩, ⟨"a", [], [], "ma"⟩, ⟨"c", [], [], "mc"⟩] = some 1 ∧
     position? (fun x => decide (Package.name x = "a"))
        [⟨"a", [], [], "ma"⟩, ⟨"c", [], [], "mc"⟩, ⟨"b", [⟨"c", false⟩], [], "mb"⟩] = some 0 ∧
     position? (fun x => decide (Package.name x = "b"))
        [⟨"a", [], [], "ma"⟩, ⟨"c", [], [], "mc"⟩, ⟨"b", [⟨"c", false⟩], [], "mb"⟩] = some 2) := by
  refine ⟨by rfl, by decide, by decide⟩

/-- C7: a dependency cycle among workspace members makes the whole run fail
with the dependency-cycle error before any document is read or written: the
returned state is exactly the initial state. -/
theorem c7_cycle_error (ctx : Context) (pkgs : List Package) (docs : List (String × Doc))
    (hnodup : (pkgs.map Package.name).Nodup)
    (hcyc : ∃ p, Relation.TransGen (depRel pkgs) p p) :
    run_feature_aspect ctx pkgs docs = (.error dep_cycle_err, initState docs) := by
  obtain ⟨p, hp⟩ := hcyc
  have hnone : topo_sort_packages pkgs = none := by
    cases h : topo_sort_packages pkgs with
    | none => rfl
    | some out => exact absurd hp (topo_sort_acyclic pkgs out hnodup h p)
  unfold run_feature_aspect
  rw [hnone]

/-- C7 witness: two mutually dependent packages. -/
theorem c7_cycle_error_witness :
    run_feature_aspect ⟨"f", [], false, false, true, ["f"], []⟩
        [⟨"pa", [⟨"pb", false⟩], [], "a"⟩, ⟨"pb", [⟨"pa", false⟩], [], "b"⟩] [] =
      (.error dep_cycle_err, initState []) :=
  c7_cycle_error ⟨"f", [], false, false, true, ["f"], []⟩
    [⟨"pa", [⟨"pb", false⟩], [], "a"⟩, ⟨"pb", [⟨"pa", false⟩], [], "b"⟩] []
    (by decide)
    ⟨⟨"pa", [⟨"pb", false⟩], [], "a"⟩, by
      have h1 : depRel [⟨"pa", [⟨"pb", false⟩], [], "a"⟩, ⟨"pb", [⟨"pa", false⟩], [], "b"⟩]
          ⟨"pa", [⟨"pb", false⟩], [], "a"⟩ ⟨"pb", [⟨"pa", false⟩], [], "b"⟩ :=
        ⟨by decide, by decide, by decide⟩
      have h2 : depRel [⟨"pa", [⟨"pb", false⟩], [], "a"⟩, ⟨"pb", [⟨"pa", false⟩], [], "b"⟩]
          ⟨"pb", [⟨"pa", false⟩], [], "b"⟩ ⟨"pa", [⟨"pb", false⟩], [], "a"⟩ :=
        ⟨by decide, by decide, by decide⟩
      exact Relation.TransGen.tail (Relation.TransGen.single h1) h2⟩
